import Mathlib

/-!
# Verification of the eduspider crawl engine

A shallow embedding, in Lean 4, of the crawl engine of the eduspider
repository (`crawler.py`, `db.py`) together with the slices of the CPython
standard library it relies on (`urllib.parse.urlparse` and friends, and
`urllib.robotparser.RobotFileParser`), and proofs of the behavioural
properties claimed by the specification.

Modelling conventions:

* Python strings are modelled as Lean `String` / `List Char`.  Case mapping
  (`str.lower`, `re.IGNORECASE`) is modelled on the ASCII range, where it
  agrees with Python; the development never relies on non-ASCII case
  folding.
* Network and store effects are oracles packaged in a `World` structure:
  `fetch` abstracts `fetch_page` + `parse_page` (BeautifulSoup HTML parsing
  is treated as an external collaborator delivering title, description,
  headings, links), `robots` abstracts `urllib.request.urlopen` of a
  robots.txt URL, and `topicFails` marks topic names whose persistence
  raises a database exception.
* Exceptions are modelled with `Except`; the error value carries the state
  at raise time, because Python side effects performed before an exception
  persist.  `KeyboardInterrupt` is kept distinct from `Exception`-derived
  errors since `except Exception` clauses do not catch it.
* Two ghost logs are threaded through the state: `trace` records every page
  fetch attempt `(url, depth)` (the `requests.get` calls issued by
  `fetch_page`) and `robotsFetched` records every robots.txt URL fetched.
  They instrument the points where the Python code performs the
  corresponding network calls and are read only by theorems.
-/

deriving instance DecidableEq for Except

namespace EduSpider

/-! ## Python string primitives (ASCII model) -/

abbrev Chars := List Char

/-- An ASCII letter (`str.isascii() and str.isalpha()` in Python). -/
def isAsciiAlpha (c : Char) : Bool :=
  (65 ≤ c.toNat ∧ c.toNat ≤ 90) ∨ (97 ≤ c.toNat ∧ c.toNat ≤ 122)

/-- An ASCII decimal digit. -/
def isAsciiDigit (c : Char) : Bool := 48 ≤ c.toNat ∧ c.toNat ≤ 57

/-- Python `str.lower` on one character, ASCII range (the development only
relies on ASCII case mapping, where this agrees with Python). -/
def asciiLower (c : Char) : Char :=
  if 65 ≤ c.toNat ∧ c.toNat ≤ 90 then Char.ofNat (c.toNat + 32) else c

/-- Python `str.lower` (ASCII model). -/
def lowerS (l : Chars) : Chars := l.map asciiLower

/-- `l` begins with `p`. -/
def listStartsWith (l p : Chars) : Bool := l.take p.length = p

/-- `l` ends with `s`. -/
def listEndsWith (l s : Chars) : Bool := l.reverse.take s.length = s.reverse

/-- `sub` occurs contiguously inside `l` (Python `in` on strings). -/
def listContainsSub (l sub : Chars) : Bool :=
  match l with
  | [] => sub = []
  | _ :: t => listStartsWith l sub || listContainsSub t sub

/-- Split at the first occurrence of `c`: `l = pre ++ c :: post` with
`c ∉ pre`; `none` when `c ∉ l` (Python `find` / `split(c, 1)`). -/
def splitAtFirstChar (c : Char) : Chars → Option (Chars × Chars)
  | [] => none
  | x :: t =>
    if x = c then some ([], t)
    else match splitAtFirstChar c t with
      | some (pre, post) => some (x :: pre, post)
      | none => none

/-- Split at the last occurrence of `c`: `l = pre ++ c :: post` with
`c ∉ post`; `none` when `c ∉ l` (Python `rfind`). -/
def splitAtLastChar (c : Char) (l : Chars) : Option (Chars × Chars) :=
  match splitAtFirstChar c l.reverse with
  | some (pre, post) => some (post.reverse, pre.reverse)
  | none => none

/-- Python `str.rstrip(c)` for a single character. -/
def pyRstrip (c : Char) (l : Chars) : Chars :=
  (l.reverse.dropWhile (· = c)).reverse

/-- Python `str.lstrip(c)` for a single character. -/
def pyLstrip (c : Char) (l : Chars) : Chars := l.dropWhile (· = c)

/-- Python `str.strip(c)` for a single character. -/
def pyStrip (c : Char) (l : Chars) : Chars := pyRstrip c (pyLstrip c l)

/-! ## The `urllib.parse` model (CPython 3.11) -/

/-- `urllib.parse.scheme_chars`. -/
def isSchemeChar (c : Char) : Bool :=
  isAsciiAlpha c || isAsciiDigit c || c = '+' || c = '-' || c = '.'

/-- `urllib.parse.uses_params` (schemes whose paths may carry `;params`). -/
def uses_params : List Chars :=
  (["", "ftp", "hdl", "prospero", "http", "imap", "https", "shttp", "rtsp",
    "rtsps", "rtspu", "sip", "sips", "mms", "sftp", "tel"].map String.data)

/-- `urllib.parse.uses_netloc` (schemes for which `urlunsplit` re-adds `//`). -/
def uses_netloc : List Chars :=
  (["", "ftp", "http", "gopher", "nntp", "telnet", "imap", "wais", "file",
    "mms", "https", "shttp", "snews", "prospero", "rtsp", "rtsps", "rtspu",
    "rsync", "svn", "svn+ssh", "sftp", "nfs", "git", "git+ssh", "ws",
    "wss"].map String.data)

/-- The preprocessing `urlsplit` applies: left-strip WHATWG C0-control-or-space
characters, then delete every tab, carriage return and line feed. -/
def urlPreprocess (l : Chars) : Chars :=
  (l.dropWhile (fun c => c.toNat ≤ 0x20)).filter
    (fun c => ¬(c = '\t' ∨ c = '\r' ∨ c = '\n'))

/-- The scheme-splitting step of `urlsplit`: if the text before the first `:`
is a non-empty run of scheme characters starting with an ASCII letter, it is
the (lower-cased) scheme; otherwise there is no scheme. -/
def splitSchemeC (l : Chars) : Chars × Chars :=
  match splitAtFirstChar ':' l with
  | none => ([], l)
  | some (pre, post) =>
    match pre with
    | [] => ([], l)
    | c0 :: _ =>
      if isAsciiAlpha c0 ∧ pre.all isSchemeChar then (lowerS pre, post) else ([], l)

/-- `urllib.parse._splitnetloc` (with `start = 2` already dropped): the netloc
runs until the first `/`, `?` or `#`. -/
def splitNetlocC (l : Chars) : Chars × Chars :=
  let n := l.takeWhile (fun c => ¬(c = '/' ∨ c = '?' ∨ c = '#'))
  (n, l.drop n.length)

/-- A hexadecimal digit. -/
def isHexDigit (c : Char) : Bool :=
  isAsciiDigit c || (97 ≤ c.toNat ∧ c.toNat ≤ 102) || (65 ≤ c.toNat ∧ c.toNat ≤ 70)

/-- Modelled from CPython `urllib.parse._check_bracketed_host`, which
validates the host inside `[...]` as an IPv6 address (via the `ipaddress`
module) or an RFC 3986 IPvFuture literal.  The full IPv6 grammar is
simplified to a hex-groups shape; the check is never load-bearing for the
claims (no claim involves bracketed hosts) and non-bracketed netlocs never
reach it.  Like CPython's check, it is insensitive to ASCII case. -/
def check_bracketed_host (h : Chars) : Bool :=
  match h with
  | 'v' :: rest =>
    -- IPvFuture: v<hex>+ "." <something nonempty>
    (match splitAtFirstChar '.' rest with
     | some (hx, tl) => hx ≠ [] ∧ hx.all isHexDigit ∧ tl ≠ []
     | none => false)
  | 'V' :: rest =>
    (match splitAtFirstChar '.' rest with
     | some (hx, tl) => hx ≠ [] ∧ hx.all isHexDigit ∧ tl ≠ []
     | none => false)
  | _ =>
    h ≠ [] ∧ h.all (fun c => isHexDigit c ∨ c = ':' ∨ c = '.') ∧ ':' ∈ h

/-- The result of `urllib.parse.urlsplit`. -/
structure SplitResultC where
  scheme : Chars
  netloc : Chars
  path : Chars
  query : Chars
  fragment : Chars
deriving DecidableEq, Repr

/-- The result of `urllib.parse.urlparse`. -/
structure ParseResultC where
  scheme : Chars
  netloc : Chars
  path : Chars
  params : Chars
  query : Chars
  fragment : Chars
deriving DecidableEq, Repr

/-- `urllib.parse.urlsplit` (with `allow_fragments=True`); `.error ()` models
the `ValueError` raised on an invalid bracketed netloc.  CPython's
`_checknetloc` (an NFKC check that can only fire on non-ASCII netlocs) is
outside the ASCII scope of this model and is treated as passing. -/
def urlsplitC (url0 : Chars) : Except Unit SplitResultC :=
  let url1 := urlPreprocess url0
  let (scheme, rest) := splitSchemeC url1
  match rest with
  | '/' :: '/' :: r2 =>
    let (netloc, rest2) := splitNetlocC r2
    if ('[' ∈ netloc ∧ ']' ∉ netloc) ∨ (']' ∈ netloc ∧ '[' ∉ netloc) then
      .error ()
    else if '[' ∈ netloc ∧ ']' ∈ netloc then
      -- netloc.partition('[')[2].partition(']')[0]
      let afterBr := match splitAtFirstChar '[' netloc with
        | some (_, post) => post
        | none => []
      let host := match splitAtFirstChar ']' afterBr with
        | some (pre, _) => pre
        | none => afterBr
      if ¬check_bracketed_host host then .error ()
      else
        let (rest3, fragment) := match splitAtFirstChar '#' rest2 with
          | some (a, b) => (a, b)
          | none => (rest2, [])
        let (path, query) := match splitAtFirstChar '?' rest3 with
          | some (a, b) => (a, b)
          | none => (rest3, [])
        .ok ⟨scheme, netloc, path, query, fragment⟩
    else
      let (rest3, fragment) := match splitAtFirstChar '#' rest2 with
        | some (a, b) => (a, b)
        | none => (rest2, [])
      let (path, query) := match splitAtFirstChar '?' rest3 with
        | some (a, b) => (a, b)
        | none => (rest3, [])
      .ok ⟨scheme, netloc, path, query, fragment⟩
  | _ =>
    let (rest3, fragment) := match splitAtFirstChar '#' rest with
      | some (a, b) => (a, b)
      | none => (rest, [])
    let (path, query) := match splitAtFirstChar '?' rest3 with
      | some (a, b) => (a, b)
      | none => (rest3, [])
    .ok ⟨scheme, [], path, query, fragment⟩

/-- `urllib.parse._splitparams`: split the path at the first `;` that follows
the last `/` (or the first `;` at all if the path has no `/`).  Total model;
`urlparse` only calls it when the path contains a `;`. -/
def pySplitParams (l : Chars) : Chars × Chars :=
  match splitAtLastChar '/' l with
  | some (pre, post) =>
    (match splitAtFirstChar ';' post with
     | some (b1, b2) => (pre ++ '/' :: b1, b2)
     | none => (l, []))
  | none =>
    (match splitAtFirstChar ';' l with
     | some (p, q) => (p, q)
     | none => (l, []))

/-- `urllib.parse.urlparse`. -/
def urlparseC (url : Chars) : Except Unit ParseResultC := do
  let sp ← urlsplitC url
  if sp.scheme ∈ uses_params ∧ ';' ∈ sp.path then
    let (p, par) := pySplitParams sp.path
    return ⟨sp.scheme, sp.netloc, p, par, sp.query, sp.fragment⟩
  else
    return ⟨sp.scheme, sp.netloc, sp.path, [], sp.query, sp.fragment⟩

/-- `urllib.parse.urlunsplit` (CPython 3.11: the `//` is re-added when there
is a netloc, or when the scheme is a known netloc-using scheme and the path
does not already begin with `//`). -/
def urlunsplitC (scheme netloc url query fragment : Chars) : Chars :=
  let u1 :=
    if netloc ≠ [] ∨ (scheme ≠ [] ∧ scheme ∈ uses_netloc ∧ url.take 2 ≠ ['/', '/']) then
      let u0 := if url ≠ [] ∧ url.take 1 ≠ ['/'] then '/' :: url else url
      '/' :: '/' :: (netloc ++ u0)
    else url
  let u2 := if scheme ≠ [] then scheme ++ ':' :: u1 else u1
  let u3 := if query ≠ [] then u2 ++ '?' :: query else u2
  if fragment ≠ [] then u3 ++ '#' :: fragment else u3

/-- `urllib.parse.urlunparse`. -/
def urlunparseC (scheme netloc url params query fragment : Chars) : Chars :=
  urlunsplitC scheme netloc (if params ≠ [] then url ++ ';' :: params else url)
    query fragment

/-! ## `crawler.py`: pure URL predicates -/

/-- `ALLOWED_TLDS` from `crawler.py`. -/
def ALLOWED_TLDS : List String := [".edu", ".org", ".gov"]

/-- `SKIP_EXTENSIONS` from `crawler.py`. -/
def SKIP_EXTENSIONS : List String :=
  [".pdf", ".jpg", ".jpeg", ".png", ".gif", ".svg", ".mp4", ".mp3",
   ".doc", ".docx", ".xls", ".xlsx", ".ppt", ".pptx", ".zip", ".tar", ".gz"]

/-- The alternatives of the `SKIP_PATH_PATTERNS` regular expression
`/(login|signin|auth|logout|signup|register|account|sso)/` (case-insensitive). -/
def AUTH_WORDS : List String :=
  ["login", "signin", "auth", "logout", "signup", "register", "account", "sso"]

/-- `normalize_url` from `crawler.py`: re-assemble with lower-cased netloc,
fragment dropped, and the path right-stripped of `/` (an emptied path becomes
`/`).  `.error` models the `ValueError` that `urlparse` can raise. -/
def normalize_urlC (url : Chars) : Except Unit Chars := do
  let p ← urlparseC url
  let path := let r := pyRstrip '/' p.path; if r = [] then ['/'] else r
  return urlunparseC p.scheme (lowerS p.netloc) path p.params p.query []

/-- `normalize_url` at `String` level. -/
def normalize_url (url : String) : Except Unit String :=
  (normalize_urlC url.data).map (⟨·⟩)

/-- `is_allowed_domain` from `crawler.py`: the lower-cased netloc ends with
one of `ALLOWED_TLDS`. -/
def is_allowed_domain (url : String) : Except Unit Bool :=
  (urlparseC url.data).map fun p =>
    ALLOWED_TLDS.any fun t => listEndsWith (lowerS p.netloc) t.data

/-- `should_skip_url` from `crawler.py`: non-HTTP(S) scheme, a skip
extension suffix on the lower-cased path, or a match of the
`SKIP_PATH_PATTERNS` regex on the path.  The case-insensitive regex search
is modelled by searching the lower-cased path for the lower-case pattern
`/word/` (ASCII case mapping, as everywhere). -/
def should_skip_url (url : String) : Except Unit Bool :=
  (urlparseC url.data).map fun p =>
    if ¬(p.scheme = "http".data ∨ p.scheme = "https".data) then true
    else
      let lower_path := lowerS p.path
      if SKIP_EXTENSIONS.any (fun e => listEndsWith lower_path e.data) then true
      else AUTH_WORDS.any fun w =>
        listContainsSub (lowerS p.path) ('/' :: w.data ++ ['/'])

/-! ## `crawler.py`: topic extraction -/

/-- `STOP_WORDS` from `crawler.py`. -/
def STOP_WORDS : List String :=
  ["the", "a", "an", "of", "for", "to", "in", "on", "at", "by", "is", "it",
   "and", "or", "but", "with", "from", "as", "this", "that",
   "are", "was", "were", "be", "been", "being", "have", "has", "had", "do",
   "does", "did", "will", "would", "shall", "should",
   "may", "might", "can", "could", "not", "no", "all", "any", "each",
   "every", "some", "its", "our", "your", "their",
   "what", "which", "who", "whom", "how", "when", "where", "why", "about",
   "into", "through", "during", "before", "after",
   "above", "below", "between", "up", "down", "out", "off", "over", "under",
   "again", "further", "then", "once", "also",
   "more", "most", "very", "just", "than", "too", "so", "such", "only",
   "own", "same", "here", "there", "these", "those",
   "home", "page", "site", "web", "contact", "us", "help", "search", "skip",
   "navigation", "menu", "main", "content",
   "new", "go", "get", "one", "two", "use"]

/-- `MIN_TOPIC_LENGTH` from `crawler.py`. -/
def MIN_TOPIC_LENGTH : Nat := 3

/-- A Python `\s` whitespace character (ASCII range). -/
def isPySpace (c : Char) : Bool :=
  c = ' ' ∨ c = '\t' ∨ c = '\n' ∨ c = '\r' ∨ c = '\x0b' ∨ c = '\x0c'

/-- A Python `\w` word character (ASCII range). -/
def isPyWord (c : Char) : Bool := isAsciiAlpha c ∨ isAsciiDigit c ∨ c = '_'

/-- The cleaning step of `extract_topics`:
`re.sub(r"[^\w\s-]", " ", text.lower())`. -/
def cleanText (l : Chars) : Chars :=
  (lowerS l).map fun c => if isPyWord c ∨ isPySpace c ∨ c = '-' then c else ' '

/-- One-pass worker for `splitWs`; `cur` holds the characters of the word
in progress, reversed. -/
def splitWsAux : Chars → Chars → List Chars
  | [], cur => if cur = [] then [] else [cur.reverse]
  | c :: t, cur =>
    if isPySpace c then
      if cur = [] then splitWsAux t [] else cur.reverse :: splitWsAux t []
    else splitWsAux t (c :: cur)

/-- Python `str.split()` with no argument: split on runs of whitespace,
dropping empty pieces. -/
def splitWs (l : Chars) : List Chars := splitWsAux l []

/-- `word.strip("-")` from `extract_topics`. -/
def stripHyphens (w : Chars) : Chars := pyStrip '-' w

/-- The word is in `STOP_WORDS`. -/
def stopWord (w : Chars) : Bool := STOP_WORDS.any fun s => s.data = w

/-- Python `str.isdigit` (ASCII model: nonempty and all decimal digits). -/
def pyIsDigit (w : Chars) : Bool := w ≠ [] ∧ w.all isAsciiDigit

/-- Python `set.add`: append if not already present (the model keeps the set
as a duplicate-free list; the claims only observe membership). -/
def setAdd (acc : List String) (x : String) : List String :=
  if x ∈ acc then acc else acc ++ [x]

/-- The unigram candidates one text contributes in `extract_topics`: each
whitespace token, hyphen-stripped, kept when it has length ≥ 3, is not a
stop word, and is not purely numeric. -/
def uniList (words : List Chars) : List String :=
  words.filterMap fun w0 =>
    if MIN_TOPIC_LENGTH ≤ (stripHyphens w0).length ∧ ¬stopWord (stripHyphens w0)
        ∧ ¬pyIsDigit (stripHyphens w0) then
      some ⟨stripHyphens w0⟩
    else none

/-- The bigram candidates one text contributes in `extract_topics`: each
adjacent token pair, both hyphen-stripped, joined by one space, kept when
neither is a stop word and both have length ≥ 3. -/
def biList : List Chars → List String
  | a :: b :: rest =>
    (if ¬stopWord (stripHyphens a) ∧ ¬stopWord (stripHyphens b)
        ∧ MIN_TOPIC_LENGTH ≤ (stripHyphens a).length
        ∧ MIN_TOPIC_LENGTH ≤ (stripHyphens b).length then
       [⟨stripHyphens a ++ ' ' :: stripHyphens b⟩] else []) ++ biList (b :: rest)
  | _ => []

/-- `extract_topics` from `crawler.py`: source texts are the title (when
non-empty) followed by the headings; each contributes its unigrams and
bigrams to one Python set, modelled as a duplicate-free list in insertion
order. -/
def extract_topics (title : String) (headings : List String) : List String :=
  let raw_texts := (if title ≠ "" then [title] else []) ++ headings
  raw_texts.foldl
    (fun acc text =>
      let words := splitWs (cleanText text.data)
      (uniList words ++ biList words).foldl setAdd acc)
    []

/-! ## The `urllib.robotparser` model (CPython 3.11) -/

/-- `USER_AGENT` from `crawler.py`. -/
def USER_AGENT : String :=
  "EduSpider/1.0 (educational crawler; +https://github.com/eduspider)"

/-- A parsed `Allow:`/`Disallow:` line (`urllib.robotparser.RuleLine`);
`path` is stored as CPython stores it (after its quote/unparse
normalisation). -/
structure RuleLine where
  path : String
  allowance : Bool
deriving DecidableEq, Repr

/-- `urllib.robotparser.Entry`: a group of user-agents with its rule lines. -/
structure Entry where
  useragents : List String
  rulelines : List RuleLine
deriving DecidableEq, Repr

/-- `RuleLine.applies_to`: the stored path is `*` or a prefix of the
query filename. -/
def RuleLine.applies_to (r : RuleLine) (filename : Chars) : Bool :=
  r.path = "*" ∨ listStartsWith filename r.path.data

/-- `Entry.applies_to`: the query user-agent, truncated at the first `/` and
lower-cased, contains one of the entry's (lower-cased) agents, or the entry
lists `*`. -/
def Entry.applies_to (e : Entry) (useragent : String) : Bool :=
  let ua := lowerS (match splitAtFirstChar '/' useragent.data with
    | some (pre, _) => pre
    | none => useragent.data)
  e.useragents.any fun agent =>
    agent = "*" ∨ listContainsSub ua (lowerS agent.data)

/-- `Entry.allowance`: the first applicable rule line decides; no applicable
line means allowed. -/
def Entry.allowance (e : Entry) (filename : Chars) : Bool :=
  match e.rulelines.find? (·.applies_to filename) with
  | some r => r.allowance
  | none => true

/-- The state of a `urllib.robotparser.RobotFileParser`.  `last_checked`
models CPython's timestamp as the boolean "has `parse` ever run"
(`can_fetch` only tests its truthiness). -/
structure RobotFileParser where
  disallow_all : Bool
  allow_all : Bool
  last_checked : Bool
  entries : List Entry
  default_entry : Option Entry
deriving DecidableEq, Repr

/-- A freshly constructed `RobotFileParser()`. -/
def initRFP : RobotFileParser :=
  { disallow_all := false, allow_all := false, last_checked := false,
    entries := [], default_entry := none }

/-- What fetching a robots.txt URL can do, seen from
`RobotFileParser.read`.  On `ok` the translation of the fetched lines into
entries (`RobotFileParser.parse`) is abstracted: the outcome carries the
parsed rule entries directly — none of the claims depends on robots.txt
line parsing.  `raises` is a non-HTTPError exception escaping
`urlopen` (network failure); `raisesKI` is a `KeyboardInterrupt`. -/
inductive RobotsFetchOutcome where
  | ok (entries : List Entry) (default_entry : Option Entry)
  | httpError (code : Nat)
  | raises
  | raisesKI
deriving DecidableEq, Repr

/-- `RobotFileParser.read` for the outcomes it handles itself: an
`HTTPError` 401/403 sets `disallow_all`, another 4xx sets `allow_all`
(other codes leave the parser untouched), and a successful fetch parses the
lines (which sets `last_checked`).  Exceptions (`raises`, `raisesKI`)
propagate to the caller leaving the parser untouched. -/
def readApply (rp : RobotFileParser) : RobotsFetchOutcome → RobotFileParser
  | .ok es de =>
    { rp with entries := es, default_entry := de, last_checked := true }
  | .httpError code =>
    if code = 401 ∨ code = 403 then { rp with disallow_all := true }
    else if 400 ≤ code ∧ code < 500 then { rp with allow_all := true }
    else rp
  | .raises => rp
  | .raisesKI => rp

/-- Python percent-quoting of one character (`urllib.parse.quote`, default
safe characters plus `/`). -/
def quoteChar (c : Char) : Chars :=
  if isAsciiAlpha c ∨ isAsciiDigit c ∨ c = '_' ∨ c = '.' ∨ c = '-' ∨ c = '~' ∨ c = '/'
  then [c]
  else
    let n := c.toNat % 256
    let hex := fun (d : Nat) => if d < 10 then Char.ofNat (d + 48)
      else Char.ofNat (d - 10 + 65)
    ['%', hex (n / 16), hex (n % 16)]

/-- `urllib.parse.quote` (ASCII model: one byte per character). -/
def pyQuote (l : Chars) : Chars := l.flatMap quoteChar

/-- The numeric value of a hex digit. -/
def hexVal (c : Char) : Nat :=
  if isAsciiDigit c then c.toNat - 48
  else if 97 ≤ c.toNat ∧ c.toNat ≤ 102 then c.toNat - 97 + 10
  else c.toNat - 65 + 10

/-- `urllib.parse.unquote` (ASCII model: each `%XX` escape becomes one
character; invalid escapes pass through, as in Python). -/
def pyUnquote : Chars → Chars
  | [] => []
  | '%' :: h1 :: h2 :: rest =>
    if isHexDigit h1 ∧ isHexDigit h2 then
      Char.ofNat (hexVal h1 * 16 + hexVal h2) :: pyUnquote rest
    else '%' :: pyUnquote (h1 :: h2 :: rest)
  | c :: rest => c :: pyUnquote rest

/-- The filename `can_fetch` matches rules against: unquote the URL, parse
it, keep path+params+query+fragment, re-quote, defaulting to `/`. -/
def canFetchFilename (url : Chars) : Except Unit Chars := do
  let p ← urlparseC (pyUnquote url)
  let f := urlunparseC [] [] p.path p.params p.query p.fragment
  let f := pyQuote f
  return if f = [] then ['/'] else f

/-- `RobotFileParser.can_fetch`.  Note the order of the gates: a parser on
which `parse` never ran (`last_checked` unset) answers `False` for every
URL, before any rule is consulted.  `.error` models the `ValueError`
`urlparse` can raise on the query URL. -/
def RobotFileParser.can_fetch (rp : RobotFileParser) (useragent : String)
    (url : Chars) : Except Unit Bool :=
  if rp.disallow_all then .ok false
  else if rp.allow_all then .ok true
  else if ¬rp.last_checked then .ok false
  else do
    let fname ← canFetchFilename url
    match rp.entries.find? (·.applies_to useragent) with
    | some e => .ok (e.allowance fname)
    | none =>
      match rp.default_entry with
      | some e => .ok (e.allowance fname)
      | none => .ok true

/-! ## Exceptions and the crawl state -/

/-- A Python exception escaping a modelled operation.  `exc` stands for an
`Exception`-derived error (caught by `except Exception`), and
`keyboardInterrupt` for `KeyboardInterrupt`, which `except Exception`
clauses do not catch. -/
inductive PyExc where
  | keyboardInterrupt
  | exc (msg : String)
deriving DecidableEq, Repr

/-- A row of the `pages` table (the columns the claims observe, plus the
metadata `save_page` stores). -/
structure PageRow where
  url : String
  title : String
  description : String
  domain : String
  crawl_depth : Nat
  crawlId : Nat
deriving DecidableEq, Repr

/-- The outcome of `fetch_page` + `parse_page` on one URL: the request can
raise an `Exception` (network error / non-2xx), a `KeyboardInterrupt` can
arrive during the request, the response can be non-HTML (`fetch_page`
returns `None`), or an HTML page is parsed into title, description,
headings and links (links as `parse_page` returns them: absolute URLs, in
some iteration order of its set). -/
inductive FetchOutcome where
  | raisesExc
  | raisesKI
  | nonHtml
  | page (title description : String) (headings : List String)
      (links : List String)

/-- The environment a crawl runs against. -/
structure World where
  fetch : String → FetchOutcome
  robots : String → RobotsFetchOutcome
  topicFails : String → Bool

/-- The mutable state a crawl threads: the within-run `visited` set, the
database tables, the process-wide robots cache, and the two ghost logs
(`trace`: page-fetch attempts with their depth; `robotsFetched`: robots.txt
URLs fetched). -/
structure St where
  visited : List String
  pages : List PageRow
  topics : List String
  pageTopics : List (Nat × Nat)
  robotsCache : List (String × RobotFileParser)
  robotsFetched : List String
  trace : List (String × Nat)
deriving DecidableEq, Repr

/-- The state a top-level `crawl` call starts from: empty `visited` set and
trace, a given `pages` table and a given process robots cache. -/
def initSt (pages0 : List PageRow) (rc : List (String × RobotFileParser)) : St :=
  { visited := [], pages := pages0, topics := [], pageTopics := [],
    robotsCache := rc, robotsFetched := [], trace := [] }

/-! ## `db.py` operations -/

/-- `db.page_exists`: some row of `pages` has this URL. -/
def page_exists (st : St) (url : String) : Bool :=
  st.pages.any (·.url = url)

/-- `db.save_page`: `None` when the UNIQUE constraint on `url` fires,
otherwise insert and return the new row id. -/
def save_page (st : St) (url title description domain : String)
    (crawl_depth crawlId : Nat) : Option Nat × St :=
  if page_exists st url then (none, st)
  else (some st.pages.length,
    { st with pages := st.pages ++
        [⟨url, title, description, domain, crawl_depth, crawlId⟩] })

/-- `db.get_or_create_topic`: look the name up, inserting it when absent.
`w.topicFails name` marks names whose persistence raises a database
exception (the failure mode the spec calls a topic-persistence failure). -/
def get_or_create_topic (w : World) (st : St) (name : String) :
    Except (PyExc × St) (Nat × St) :=
  if w.topicFails name then .error (.exc ("topic error: " ++ name), st)
  else
    match st.topics.findIdx? (· = name) with
    | some i => .ok (i, st)
    | none => .ok (st.topics.length, { st with topics := st.topics ++ [name] })

/-- `db.link_page_topic`: duplicate links are a no-op (the
`IntegrityError` is swallowed). -/
def link_page_topic (st : St) (pid tid : Nat) : St :=
  if (pid, tid) ∈ st.pageTopics then st
  else { st with pageTopics := st.pageTopics ++ [(pid, tid)] }

/-- The topic loop of `crawl` (source lines 193–196): for each extracted
topic, `get_or_create_topic` then `link_page_topic`, with no exception
handler around either call. -/
def linkTopics (w : World) (pid : Nat) : List String → St → Except (PyExc × St) St
  | [], st => .ok st
  | t :: ts, st =>
    match get_or_create_topic w st t with
    | .error e => .error e
    | .ok (tid, st') => linkTopics w pid ts (link_page_topic st' pid tid)

/-! ## `check_robots` -/

/-- The robots.txt URL `check_robots` builds:
`f"{parsed.scheme}://{domain}/robots.txt"`. -/
def robotsUrlOf (p : ParseResultC) : String :=
  (⟨p.scheme⟩ : String) ++ "://" ++ (⟨p.netloc⟩ : String) ++ "/robots.txt"

/-- `check_robots` from `crawler.py`.  The cache is keyed by the verbatim
netloc.  On a cache hit the cached parser answers and nothing is fetched.
On a miss, a fresh parser reads `{scheme}://{netloc}/robots.txt`; a
non-HTTPError exception from the read is swallowed (`except Exception:
pass`) leaving the parser in its initial state, after which the parser is
cached and queried.  A `KeyboardInterrupt` during the read propagates
before anything is cached.  Returns the answer, the updated cache, and the
list of robots URLs fetched by this call (ghost log). -/
def check_robots (oracle : String → RobotsFetchOutcome)
    (cache : List (String × RobotFileParser)) (url : String) :
    Except PyExc (Bool × List (String × RobotFileParser) × List String) :=
  match urlparseC url.data with
  | .error _ => .error (.exc "ValueError")
  | .ok parsed =>
    let domain : String := ⟨parsed.netloc⟩
    match cache.lookup domain with
    | some rp =>
      match rp.can_fetch USER_AGENT url.data with
      | .error _ => .error (.exc "ValueError")
      | .ok b => .ok (b, cache, [])
    | none =>
      let robots_url := robotsUrlOf parsed
      match oracle robots_url with
      | .raisesKI => .error .keyboardInterrupt
      | o =>
        let rp := readApply initRFP o
        let cache' := cache ++ [(domain, rp)]
        match rp.can_fetch USER_AGENT url.data with
        | .error _ => .error (.exc "ValueError")
        | .ok b => .ok (b, cache', [robots_url])

/-- A sequence of `check_robots` calls sharing the process-wide cache, as
repeated calls during one process lifetime do; collects every answer and
every robots URL fetched. -/
def checkRobotsSeq (oracle : String → RobotsFetchOutcome)
    (cache : List (String × RobotFileParser)) :
    List String → Except PyExc (List Bool × List (String × RobotFileParser) × List String)
  | [] => .ok ([], cache, [])
  | u :: us =>
    match check_robots oracle cache u with
    | .error e => .error e
    | .ok (b, cache', f) =>
      match checkRobotsSeq oracle cache' us with
      | .error e => .error e
      | .ok (bs, cache'', fs) => .ok (b :: bs, cache'', f ++ fs)

/-! ## The traversal (`crawl`) -/

/-- The link loop of `crawl` (source lines 198–207), parametrised by the
recursive call `rec` at the child depth: each link is normalised (a
`ValueError` propagates), skipped when already visited, when
`should_skip_url` holds or when `is_allowed_domain` fails, and otherwise
recursed into, accumulating the returned counts. -/
def crawlLoop (rec : String → St → Except (PyExc × St) (Nat × St)) :
    List String → Nat → St → Except (PyExc × St) (Nat × St)
  | [], acc, st => .ok (acc, st)
  | l :: ls, acc, st =>
    match normalize_url l with
    | .error _ => .error (.exc "ValueError", st)
    | .ok link =>
      if link ∈ st.visited then crawlLoop rec ls acc st
      else
        match should_skip_url link with
        | .error _ => .error (.exc "ValueError", st)
        | .ok true => crawlLoop rec ls acc st
        | .ok false =>
          match is_allowed_domain link with
          | .error _ => .error (.exc "ValueError", st)
          | .ok false => crawlLoop rec ls acc st
          | .ok true =>
            match rec link st with
            | .error e => .error e
            | .ok (n, st') => crawlLoop rec ls (acc + n) st'

/-- The body of `crawl` (source lines 152–209), fuelled.  The fuel is a
structural-recursion device only: `crawl` supplies `maxDepth + 2 - depth`,
and every recursive call (guarded by `depth < maxDepth`, at depth
`depth + 1`) keeps the fuel in step, so the fuel-0 branch is unreachable
from `crawl` at any `depth ≤ maxDepth + 1`.  Step order, as in the source:
normalise (a `ValueError` propagates); stop when visited or too deep; mark
visited; stop when the store already has the page; robots gate (its
exceptions propagate); `rate_limit` (sleeps and updates per-domain
timestamps only — wall-clock effects are not modelled); record the fetch
attempt in the ghost trace and fetch (`except Exception` yields 0, a
`KeyboardInterrupt` propagates); stop on non-HTML; save (duplicate yields
0); link topics (exceptions propagate); recurse into links when
`depth < maxDepth`. -/
def crawlF (w : World) (maxDepth crawlId : Nat) :
    Nat → String → Nat → St → Except (PyExc × St) (Nat × St)
  | 0, _, _, st => .ok (0, st)
  | fuel + 1, url0, depth, st =>
    match normalize_url url0 with
    | .error _ => .error (.exc "ValueError", st)
    | .ok url =>
      if url ∈ st.visited ∨ maxDepth < depth then .ok (0, st)
      else
        let st1 := { st with visited := st.visited ++ [url] }
        if page_exists st1 url then .ok (0, st1)
        else
          match urlparseC url.data with
          | .error _ => .error (.exc "ValueError", st1)
          | .ok parsed =>
            let domain : String := ⟨lowerS parsed.netloc⟩
            match check_robots w.robots st1.robotsCache url with
            | .error e => .error (e, st1)
            | .ok (allowed, rc, fetched) =>
              let st2 := { st1 with
                robotsCache := rc
                robotsFetched := st1.robotsFetched ++ fetched }
              if ¬allowed then .ok (0, st2)
              else
                let st3 := { st2 with trace := st2.trace ++ [(url, depth)] }
                match w.fetch url with
                | .raisesKI => .error (.keyboardInterrupt, st3)
                | .raisesExc => .ok (0, st3)
                | .nonHtml => .ok (0, st3)
                | .page title description headings links =>
                  match save_page st3 url title description domain depth crawlId with
                  | (none, st4) => .ok (0, st4)
                  | (some pid, st4) =>
                    match linkTopics w pid (extract_topics title headings) st4 with
                    | .error e => .error e
                    | .ok st5 =>
                      if depth < maxDepth then
                        crawlLoop
                          (fun l s => crawlF w maxDepth crawlId fuel l (depth + 1) s)
                          links 1 st5
                      else .ok (1, st5)

/-- `crawl(url, max_depth, crawl_id, depth, visited)` from `crawler.py`.
The state carries the `visited` set (a top-level call starts from
`initSt`, i.e. `visited=None` → fresh set). -/
def crawl (w : World) (url : String) (maxDepth crawlId depth : Nat) (st : St) :
    Except (PyExc × St) (Nat × St) :=
  crawlF w maxDepth crawlId (maxDepth + 2 - depth) url depth st

/-- The state after a crawl, whether it returned or raised (Python side
effects performed before an exception persist). -/
def finalSt : Except (PyExc × St) (Nat × St) → St
  | .ok (_, st) => st
  | .error (_, st) => st

/-- The count a crawl returned (0 when it raised). -/
def runCount : Except (PyExc × St) (Nat × St) → Nat
  | .ok (n, _) => n
  | .error _ => 0

/-- The exception a crawl raised, if any. -/
def runExc : Except (PyExc × St) (Nat × St) → Option PyExc
  | .ok _ => none
  | .error (e, _) => some e

/-! ## The top level (`main`) -/

/-- A row of the `crawls` table.  `statusHistory` is the ghost sequence of
values the `status` column has held, in order. -/
structure CrawlJob where
  seedUrl : String
  maxDepth : Nat
  pagesFound : Nat
  status : String
  statusHistory : List String
deriving DecidableEq, Repr

/-- `db.create_crawl`: the job starts in status `running`. -/
def create_crawl (seed : String) (maxDepth : Nat) : CrawlJob :=
  { seedUrl := seed, maxDepth := maxDepth, pagesFound := 0,
    status := "running", statusHistory := ["running"] }

/-- `db.finish_crawl`: one UPDATE of count and status. -/
def finish_crawl (j : CrawlJob) (pagesFound : Nat) (status : String) : CrawlJob :=
  { j with
    pagesFound := pagesFound
    status := status
    statusHistory := j.statusHistory ++ [status] }

/-- The `try/except` around the traversal in `main` (source lines 229–244),
from `create_crawl` on: normal completion finishes the job as `done` with
the returned count; a `KeyboardInterrupt` escaping the traversal finishes
it as `interrupted` with the number of pages the store holds for this
crawl id; any other exception escaping finishes it as `error` with count
0.  Returns the finished job and the final store state. -/
def mainRun (w : World) (seed : String) (maxDepth crawlId : Nat) (st0 : St) :
    CrawlJob × St :=
  let job := create_crawl seed maxDepth
  match crawl w seed maxDepth crawlId 0 st0 with
  | .ok (n, st) => (finish_crawl job n "done", st)
  | .error (.keyboardInterrupt, st) =>
    (finish_crawl job (st.pages.filter (·.crawlId = crawlId)).length "interrupted", st)
  | .error (.exc _, st) => (finish_crawl job 0 "error", st)

/-! ## Spec-side definitions

These definitions follow the wording of the specification's claims (not the
code); they exist to be compared with the code-side definitions above. -/

/-- Python `str.split(c)`: split at every occurrence, keeping empty pieces. -/
def splitAllChar (c : Char) : Chars → List Chars
  | [] => [[]]
  | x :: t =>
    if x = c then [] :: splitAllChar c t
    else
      match splitAllChar c t with
      | h :: r => (x :: h) :: r
      | [] => [[x]]

/-- The segments of a URL path, split at every `/` (the standard reading of
"path segment"). -/
def pathSegments (p : Chars) : List Chars := splitAllChar '/' p

/-- The claim's reading of `should_skip`: scheme not HTTP(S), or a skip
extension suffix on the lower-cased path, or one of the authentication
words occurring, case-insensitively, as a path segment (an element of the
path split at `/`). -/
def claimSkipPredicate (url : String) : Bool :=
  match urlparseC url.data with
  | .error _ => false
  | .ok p =>
    ¬(p.scheme = "http".data ∨ p.scheme = "https".data)
    ∨ SKIP_EXTENSIONS.any (fun e => listEndsWith (lowerS p.path) e.data)
    ∨ AUTH_WORDS.any (fun w => (pathSegments (lowerS p.path)).contains w.data)

/-- The host of a netloc: strip the userinfo (up to the last `@`) and the
port (after the host), lower-cased — Python's `.hostname` accessor, which
the claim's word "host" denotes. -/
def pyHostname (netloc : Chars) : Chars :=
  let hostinfo := match splitAtLastChar '@' netloc with
    | some (_, post) => post
    | none => netloc
  match splitAtFirstChar '[' hostinfo with
  | some (_, bracketed) =>
    (match splitAtFirstChar ']' bracketed with
     | some (h, _) => lowerS h
     | none => lowerS bracketed)
  | none =>
    match splitAtFirstChar ':' hostinfo with
    | some (h, _) => lowerS h
    | none => lowerS hostinfo

/-- The claim's reading of `in_scope`: the lower-cased host (not the full
netloc) ends with an allowed TLD. -/
def claimInScopePredicate (url : String) : Bool :=
  match urlparseC url.data with
  | .error _ => false
  | .ok p => ALLOWED_TLDS.any fun t => listEndsWith (pyHostname p.netloc) t.data

/-- The source texts of topic extraction, per the claim: the title if
non-empty, then each heading. -/
def specTopicSources (title : String) (headings : List String) : List String :=
  (if title ≠ "" then [title] else []) ++ headings

/-- The tokens of one source text, per the claim: lower-case, replace every
character that is not a letter, digit, underscore, hyphen or whitespace
with a space, split on whitespace. -/
def specTokens (text : String) : List Chars := splitWs (cleanText text.data)

/-- Membership in the topic set per the claim's words: some source text
contributes `t` either as a unigram (a token, hyphen-stripped, of length
≥ 3, not purely numeric, not a stop word) or as a bigram (two adjacent
tokens, each hyphen-stripped of length ≥ 3 and not a stop word, joined by
one space). -/
def specTopicMem (title : String) (headings : List String) (t : String) : Prop :=
  ∃ text ∈ specTopicSources title headings,
    (∃ w ∈ specTokens text,
       t.data = stripHyphens w ∧ MIN_TOPIC_LENGTH ≤ (stripHyphens w).length ∧
       ¬stopWord (stripHyphens w) ∧ ¬pyIsDigit (stripHyphens w))
    ∨ (∃ pr ∈ (specTokens text).zip (specTokens text).tail,
       t.data = stripHyphens pr.1 ++ ' ' :: stripHyphens pr.2 ∧
       MIN_TOPIC_LENGTH ≤ (stripHyphens pr.1).length ∧
       MIN_TOPIC_LENGTH ≤ (stripHyphens pr.2).length ∧
       ¬stopWord (stripHyphens pr.1) ∧ ¬stopWord (stripHyphens pr.2))

/-! ## Concrete worlds used by witnesses and counterexamples -/

/-- The state a `linkTopics` call leaves behind, whether it returned or
raised. -/
def ltSt : Except (PyExc × St) St → St
  | .ok st => st
  | .error (_, st) => st

/-- A small healthy world: the seed page links to two same-TLD pages (one
of which fails to fetch) and one out-of-TLD page; robots allows
everything; topics never fail. -/
def demoWorld : World where
  fetch := fun u =>
    if u = "https://example.edu/" then
      .page "The Sun and Its Light" "d" ["Solar Energy Basics"]
        ["https://example.edu/a", "https://example.edu/b", "https://example.com/x"]
    else if u = "https://example.edu/a" then .page "A Article" "" [] []
    else if u = "https://example.edu/b" then .raisesExc
    else .nonHtml
  robots := fun _ => .ok [] none
  topicFails := fun _ => false

/-- A world whose store raises on persisting the topic `"solar"`. -/
def topicFailWorld : World where
  fetch := fun u =>
    if u = "https://seed.edu/" then
      .page "Solar Energy" "" [] ["https://seed.edu/next"]
    else .page "Next Article" "" [] []
  robots := fun _ => .ok [] none
  topicFails := fun t => t = "solar"

/-- A world whose robots.txt fetches always raise a network error. -/
def robotsDownWorld : World where
  fetch := fun _ => .nonHtml
  robots := fun _ => .raises
  topicFails := fun _ => false

/-- A robots oracle that serves, for the HTTP robots.txt of host `h`, an
entry disallowing everything, and allows everything elsewhere. -/
def schemeSensitiveOracle : String → RobotsFetchOutcome := fun u =>
  if u = "http://h.edu/robots.txt" then
    .ok [] (some { useragents := ["*"], rulelines := [{ path := "/", allowance := false }] })
  else .ok [] none

/-! # Theorems

## Basic facts about the character primitives -/

theorem toNat_ofNat_valid (n : Nat) (h : Nat.isValidChar n) :
    (Char.ofNat n).toNat = n := by
  unfold Char.ofNat
  rw [dif_pos h]
  unfold Char.ofNatAux Char.toNat UInt32.toNat
  simp

theorem asciiLower_toNat_of_upper (c : Char) (h : 65 ≤ c.toNat ∧ c.toNat ≤ 90) :
    (asciiLower c).toNat = c.toNat + 32 := by
  unfold asciiLower
  rw [if_pos h]
  exact toNat_ofNat_valid _ (Or.inl (by omega))

theorem asciiLower_idem (c : Char) : asciiLower (asciiLower c) = asciiLower c := by
  by_cases h : 65 ≤ c.toNat ∧ c.toNat ≤ 90
  · have ht := asciiLower_toNat_of_upper c h
    unfold asciiLower
    rw [if_pos h]
    rw [if_neg]
    unfold asciiLower at ht
    rw [if_pos h] at ht
    omega
  · unfold asciiLower
    rw [if_neg h, if_neg h]

theorem lowerS_idem (l : Chars) : lowerS (lowerS l) = lowerS l := by
  unfold lowerS
  rw [List.map_map]
  exact List.map_congr_left fun c _ => asciiLower_idem c

/-- `asciiLower` can only produce a character outside `a`–`z` from that very
character. -/
theorem asciiLower_eq_of_not_lower {c d : Char}
    (hd : ¬(97 ≤ d.toNat ∧ d.toNat ≤ 122)) (h : asciiLower c = d) : c = d := by
  by_cases hc : 65 ≤ c.toNat ∧ c.toNat ≤ 90
  · exfalso
    have := asciiLower_toNat_of_upper c hc
    rw [h] at this
    omega
  · unfold asciiLower at h
    rwa [if_neg hc] at h

theorem not_mem_lowerS {d : Char} (hd : ¬(97 ≤ d.toNat ∧ d.toNat ≤ 122))
    {l : Chars} (h : d ∉ l) : d ∉ lowerS l := by
  intro hmem
  obtain ⟨c, hc, hlc⟩ := List.mem_map.mp hmem
  exact h (asciiLower_eq_of_not_lower hd hlc ▸ hc)

theorem splitAtFirstChar_eq_none {c : Char} {l : Chars} :
    splitAtFirstChar c l = none ↔ c ∉ l := by
  induction l with
  | nil => simp [splitAtFirstChar]
  | cons x t ih =>
    simp only [splitAtFirstChar]
    by_cases hx : x = c
    · simp [hx]
    · rw [if_neg hx]
      cases hsp : splitAtFirstChar c t with
      | none =>
        simp only [List.mem_cons]
        constructor
        · intro _ hor
          rcases hor with h | h
          · exact hx h.symm
          · exact (ih.mp hsp) h
        · intro _; trivial
      | some pr =>
        simp only [List.mem_cons]
        constructor
        · intro h; cases h
        · intro hni
          exfalso
          have : c ∈ t := by
            by_contra hc
            rw [← ih] at hc
            rw [hsp] at hc
            cases hc
          exact hni (Or.inr this)

theorem splitAtFirstChar_sound {c : Char} {l pre post : Chars}
    (h : splitAtFirstChar c l = some (pre, post)) :
    l = pre ++ c :: post ∧ c ∉ pre := by
  induction l generalizing pre with
  | nil => simp [splitAtFirstChar] at h
  | cons x t ih =>
    simp only [splitAtFirstChar] at h
    by_cases hx : x = c
    · rw [if_pos hx] at h
      cases h
      simpa using hx
    · rw [if_neg hx] at h
      cases hsp : splitAtFirstChar c t with
      | none => rw [hsp] at h; cases h
      | some pr =>
        rw [hsp] at h
        obtain ⟨pre', post'⟩ := pr
        cases h
        obtain ⟨he, hn⟩ := ih hsp
        constructor
        · simp [he]
        · simp only [List.mem_cons]
          rintro (h | h)
          · exact hx h.symm
          · exact hn h

theorem splitAtFirstChar_append {c : Char} {a b : Chars} (ha : c ∉ a) :
    splitAtFirstChar c (a ++ c :: b) = some (a, b) := by
  induction a with
  | nil => simp [splitAtFirstChar]
  | cons x t ih =>
    simp only [List.mem_cons, not_or] at ha
    have hxc : ¬x = c := fun h => ha.1 h.symm
    simp only [List.cons_append, splitAtFirstChar, if_neg hxc, List.append_eq,
      ih ha.2]

/-! ## C1: robots fetch failure is fail-closed, not fail-open

`check_robots` swallows the exception a failed `RobotFileParser.read`
raises and caches the parser — but a `RobotFileParser` whose `read` failed
has `last_checked` unset, and CPython's `can_fetch` answers `False` for
every URL in that state.  The code's own comment says "If we can't read
robots.txt, assume allowed"; the cached policy actually denies everything
for the domain. -/

/-- A fresh parser (as left behind by a `read` that raised) denies every
URL to every user agent: `can_fetch` answers `False` before consulting any
rule whenever `last_checked` is unset. -/
theorem initRFP_denies_all (ua : String) (u : Chars) :
    initRFP.can_fetch ua u = .ok false := rfl

/-- C1 (code_bug): when the robots.txt fetch of a domain raises, the
`except Exception: pass` in `check_robots` leaves the fresh parser with
`last_checked` unset; `check_robots` then caches that parser for the
domain and returns `False`, and the cached parser denies every URL — the
exact opposite of the claimed "allow everything" policy.  (Fetching a URL
of an unseen domain whose robots.txt fetch raises: the call answers
`false`, caches the deny-all parser, and every later query of the domain
is denied from the cache.) -/
theorem check_robots_read_failure_fail_closed
    (oracle : String → RobotsFetchOutcome) (url : String) (p : ParseResultC)
    (hp : urlparseC url.data = .ok p)
    (ho : oracle (robotsUrlOf p) = .raises) :
    check_robots oracle [] url
      = .ok (false, [((⟨p.netloc⟩ : String), initRFP)], [robotsUrlOf p])
    ∧ ∀ (ua : String) (u : Chars), initRFP.can_fetch ua u = .ok false := by
  refine ⟨?_, fun ua u => rfl⟩
  unfold check_robots
  rw [hp]
  simp only [List.lookup_nil, ho, readApply]
  rfl

/-- Witness for C1 at a concrete world and URL. -/
theorem check_robots_read_failure_fail_closed_witness :
    check_robots (fun _ => .raises) [] "https://unreachable.edu/page"
      = .ok (false, [("unreachable.edu", initRFP)],
             ["https://unreachable.edu/robots.txt"])
    ∧ initRFP.can_fetch USER_AGENT "https://unreachable.edu/other".data
      = .ok false := by
  have h := check_robots_read_failure_fail_closed (fun _ => .raises)
    "https://unreachable.edu/page"
    ⟨"https".data, "unreachable.edu".data, "/page".data, [], [], []⟩
    (by rfl) (by rfl)
  exact ⟨h.1, h.2 USER_AGENT _⟩

/-! ## C6: `should_skip` and authentication path segments

The claim reads the auth filter as "contains an authentication word as a
path segment".  The regex `/(login|...)/` requires a `/` on **both** sides
of the word, so a final path segment (no trailing slash) does not match:
`should_skip("https://site.edu/login")` is `False` although `login` is a
path segment.  The amended claim requires the word to be enclosed in
slashes on both sides. -/

/-- Counterexample to C6 as stated: for `https://site.edu/login` the code
does not skip, yet `login` is a path segment, so the claimed
iff fails at this URL. -/
theorem should_skip_segment_claim_cex :
    should_skip_url "https://site.edu/login" = .ok false
    ∧ claimSkipPredicate "https://site.edu/login" = true
    ∧ "login".data ∈ pathSegments (lowerS "/login".data) := by
  exact ⟨rfl, rfl, by decide⟩

/-- C6 (amended): `should_skip_url` is true exactly when the scheme is not
HTTP(S), or the lower-cased path ends with a skip extension, or an
authentication word occurs in the path enclosed by `/` on both sides
(case-insensitively). -/
theorem should_skip_url_spec (url : String) (p : ParseResultC)
    (hp : urlparseC url.data = .ok p) :
    should_skip_url url = .ok true ↔
      (¬(p.scheme = "http".data ∨ p.scheme = "https".data)
       ∨ (∃ e ∈ SKIP_EXTENSIONS, listEndsWith (lowerS p.path) e.data = true)
       ∨ (∃ w ∈ AUTH_WORDS,
            listContainsSub (lowerS p.path) ('/' :: w.data ++ ['/']) = true)) := by
  unfold should_skip_url
  rw [hp]
  simp only [Except.map]
  rw [Except.ok.injEq]
  by_cases h1 : p.scheme = "http".data ∨ p.scheme = "https".data
  · rw [if_neg (not_not_intro h1)]
    by_cases h2 : SKIP_EXTENSIONS.any
        (fun e => listEndsWith (lowerS p.path) e.data) = true
    · rw [if_pos h2]
      simp only [true_iff]
      exact Or.inr (Or.inl (List.any_eq_true.mp h2))
    · rw [if_neg h2]
      rw [List.any_eq_true]
      constructor
      · intro h; exact Or.inr (Or.inr h)
      · rintro (h | h | h)
        · exact absurd h1 h
        · exact absurd (List.any_eq_true.mpr h) h2
        · exact h
  · rw [if_pos h1]
    simp only [true_iff]
    exact Or.inl h1

/-- Witness for C6 (amended) at the spec's example URLs. -/
theorem should_skip_url_spec_witness :
    should_skip_url "https://site.edu/paper.pdf" = .ok true
    ∧ should_skip_url "https://site.edu/login/" = .ok true
    ∧ should_skip_url "https://site.edu/about" = .ok false := by
  refine ⟨?_, by rfl, by rfl⟩
  exact (should_skip_url_spec "https://site.edu/paper.pdf"
    ⟨"https".data, "site.edu".data, "/paper.pdf".data, [], [], []⟩ (by rfl)).mpr
    (Or.inr (Or.inl ⟨".pdf", by decide, by rfl⟩))

/-! ## C7: `in_scope` and the host of a URL with a port

`is_allowed_domain` tests the **netloc** (which includes userinfo and
port), not the host: `https://mit.edu:8080/` has host `mit.edu` (in an
allowed TLD) yet is rejected, because `"mit.edu:8080"` does not end with
`".edu"`.  The amended claim replaces "host" with "netloc". -/

/-- Counterexample to C7 as stated: a URL with an explicit port whose host
ends with `.edu` is rejected by the code, so the claimed iff fails. -/
theorem is_allowed_domain_host_claim_cex :
    is_allowed_domain "https://mit.edu:8080/" = .ok false
    ∧ claimInScopePredicate "https://mit.edu:8080/" = true := by
  exact ⟨rfl, rfl⟩

/-- C7 (amended): `is_allowed_domain` is true exactly when the lower-cased
netloc (host plus any userinfo and port) ends with an allowed TLD. -/
theorem is_allowed_domain_spec (url : String) (p : ParseResultC)
    (hp : urlparseC url.data = .ok p) :
    is_allowed_domain url = .ok true ↔
      ∃ t ∈ ALLOWED_TLDS, listEndsWith (lowerS p.netloc) t.data = true := by
  unfold is_allowed_domain
  rw [hp]
  simp only [Except.map]
  rw [Except.ok.injEq]
  exact List.any_eq_true

/-- Witness for C7 (amended) at the spec's example URLs. -/
theorem is_allowed_domain_spec_witness :
    is_allowed_domain "https://mit.edu" = .ok true
    ∧ is_allowed_domain "https://epa.gov" = .ok true
    ∧ is_allowed_domain "https://wikipedia.org" = .ok true
    ∧ is_allowed_domain "https://example.com" = .ok false := by
  refine ⟨?_, by rfl, by rfl, by rfl⟩
  exact (is_allowed_domain_spec "https://mit.edu"
    ⟨"https".data, "mit.edu".data, [], [], [], []⟩ (by rfl)).mpr
    ⟨".edu", by decide, by rfl⟩

/-! ## C8: topic extraction -/

theorem mem_setAdd {acc : List String} {x y : String} :
    y ∈ setAdd acc x ↔ y ∈ acc ∨ y = x := by
  unfold setAdd
  split
  · rename_i h
    constructor
    · exact Or.inl
    · rintro (hy | rfl)
      · exact hy
      · exact h
  · simp

theorem mem_foldl_setAdd (xs : List String) (acc : List String) (y : String) :
    y ∈ xs.foldl setAdd acc ↔ y ∈ acc ∨ y ∈ xs := by
  induction xs generalizing acc with
  | nil => simp
  | cons x t ih =>
    simp only [List.foldl_cons, ih, mem_setAdd, List.mem_cons]
    tauto

theorem mem_foldl_texts (g : String → List String) (raw : List String)
    (acc : List String) (y : String) :
    y ∈ raw.foldl (fun a text => (g text).foldl setAdd a) acc
      ↔ y ∈ acc ∨ ∃ text ∈ raw, y ∈ g text := by
  induction raw generalizing acc with
  | nil => simp
  | cons r rt ih =>
    simp only [List.foldl_cons, ih, mem_foldl_setAdd, List.mem_cons]
    constructor
    · rintro ((h | h) | ⟨text, ht, hy⟩)
      · exact Or.inl h
      · exact Or.inr ⟨r, Or.inl rfl, h⟩
      · exact Or.inr ⟨text, Or.inr ht, hy⟩
    · rintro (h | ⟨text, (rfl | ht), hy⟩)
      · exact Or.inl (Or.inl h)
      · exact Or.inl (Or.inr hy)
      · exact Or.inr ⟨text, ht, hy⟩

theorem mem_uniList (ws : List Chars) (t : String) :
    t ∈ uniList ws ↔
      ∃ w ∈ ws, t.data = stripHyphens w
        ∧ MIN_TOPIC_LENGTH ≤ (stripHyphens w).length
        ∧ ¬stopWord (stripHyphens w) ∧ ¬pyIsDigit (stripHyphens w) := by
  unfold uniList
  rw [List.mem_filterMap]
  apply exists_congr; intro w
  apply and_congr_right; intro _
  by_cases hc : MIN_TOPIC_LENGTH ≤ (stripHyphens w).length
      ∧ ¬stopWord (stripHyphens w) = true ∧ ¬pyIsDigit (stripHyphens w) = true
  · rw [if_pos hc, Option.some.injEq]
    constructor
    · rintro rfl
      exact ⟨rfl, hc.1, hc.2.1, hc.2.2⟩
    · rintro ⟨heq, _, _, _⟩
      exact (congrArg String.mk heq).symm
  · rw [if_neg hc]
    constructor
    · intro h; cases h
    · rintro ⟨heq, h1, h2, h3⟩
      exact absurd ⟨h1, h2, h3⟩ hc

theorem mem_biList (ws : List Chars) (t : String) :
    t ∈ biList ws ↔
      ∃ pr ∈ ws.zip ws.tail,
        t.data = stripHyphens pr.1 ++ ' ' :: stripHyphens pr.2
        ∧ MIN_TOPIC_LENGTH ≤ (stripHyphens pr.1).length
        ∧ MIN_TOPIC_LENGTH ≤ (stripHyphens pr.2).length
        ∧ ¬stopWord (stripHyphens pr.1) ∧ ¬stopWord (stripHyphens pr.2) := by
  induction ws with
  | nil => simp [biList]
  | cons a tail ih =>
    cases tail with
    | nil => simp [biList]
    | cons b rest =>
      rw [show (a :: b :: rest).zip (a :: b :: rest).tail
            = (a, b) :: (b :: rest).zip (b :: rest).tail from rfl]
      rw [biList, List.mem_append]
      constructor
      · rintro (h | h)
        · by_cases hc : ¬stopWord (stripHyphens a) = true
              ∧ ¬stopWord (stripHyphens b) = true
              ∧ MIN_TOPIC_LENGTH ≤ (stripHyphens a).length
              ∧ MIN_TOPIC_LENGTH ≤ (stripHyphens b).length
          · rw [if_pos hc, List.mem_singleton] at h
            subst h
            exact ⟨(a, b), List.mem_cons_self _ _,
              rfl, hc.2.2.1, hc.2.2.2, hc.1, hc.2.1⟩
          · rw [if_neg hc] at h
            cases h
        · obtain ⟨pr, hpr, hrest⟩ := ih.mp h
          exact ⟨pr, List.mem_cons_of_mem _ hpr, hrest⟩
      · rintro ⟨pr, hpr, heq, h1, h2, h3, h4⟩
        rcases List.mem_cons.mp hpr with hh | hpr
        · subst hh
          refine Or.inl ?_
          rw [if_pos ⟨h3, h4, h1, h2⟩, List.mem_singleton]
          exact congrArg String.mk heq
        · exact Or.inr (ih.mpr ⟨pr, hpr, heq, h1, h2, h3, h4⟩)

/-- C8 (confirmed): membership in the set `extract_topics` returns is
exactly the specification's description (unigrams: tokens of length ≥ 3,
not purely numeric, not stop words; bigrams: adjacent token pairs, both of
length ≥ 3 and not stop words, joined by a space) — together with the
spec's concrete examples. -/
theorem extract_topics_spec :
    (∀ (title : String) (headings : List String) (t : String),
       t ∈ extract_topics title headings ↔ specTopicMem title headings t)
    ∧ "sun" ∈ extract_topics "The Sun and Its Light" []
    ∧ "light" ∈ extract_topics "The Sun and Its Light" []
    ∧ "the" ∉ extract_topics "The Sun and Its Light" []
    ∧ "and" ∉ extract_topics "The Sun and Its Light" []
    ∧ "its" ∉ extract_topics "The Sun and Its Light" []
    ∧ "solar energy" ∈ extract_topics "" ["Solar Energy Basics"]
    ∧ "energy basics" ∈ extract_topics "" ["Solar Energy Basics"] := by
  refine ⟨?_, by decide, by decide, by decide, by decide, by decide,
    by decide, by decide⟩
  intro title headings t
  unfold extract_topics specTopicMem
  rw [mem_foldl_texts
    (fun text => uniList (splitWs (cleanText text.data))
      ++ biList (splitWs (cleanText text.data)))]
  simp only [List.not_mem_nil, false_or]
  apply exists_congr; intro text
  apply and_congr_right; intro _
  rw [List.mem_append, mem_uniList, mem_biList]
  rfl

/-! ## C2: topic persistence failures escape the traversal

The topic loop in `crawl` (lines 193–196) has no exception handler, and
neither do the recursive `crawl` calls: an exception from
`get_or_create_topic` aborts the whole traversal and is first caught by
the top-level handler in `main`. -/

/-- Counterexample to C2 as stated: a crawl in which the seed page is
successfully saved (one page row exists) and a topic-persistence failure
then escapes the whole traversal as an exception — the sibling link
`https://seed.edu/next` is never fetched (the trace holds only the seed). -/
theorem crawl_topic_exception_escapes_cex :
    runExc (crawl topicFailWorld "https://seed.edu" 1 3 0 (initSt [] []))
      = some (.exc "topic error: solar")
    ∧ (finalSt (crawl topicFailWorld "https://seed.edu" 1 3 0 (initSt [] []))).pages.length = 1
    ∧ (finalSt (crawl topicFailWorld "https://seed.edu" 1 3 0 (initSt [] []))).trace
      = [("https://seed.edu/", 0)] := by
  exact ⟨rfl, rfl, rfl⟩

theorem linkTopics_find_fail (w : World) (pid : Nat) (ts : List String)
    (t : String) (h : ts.find? w.topicFails = some t) :
    ∀ st, ∃ stE, linkTopics w pid ts st
      = .error (.exc ("topic error: " ++ t), stE) := by
  induction ts with
  | nil => simp at h
  | cons t0 rest ih =>
    intro st
    by_cases h0 : w.topicFails t0
    · have ht : t0 = t := by
        rw [List.find?_cons_of_pos _ h0] at h
        exact Option.some.injEq .. ▸ h
      subst ht
      exact ⟨st, by simp [linkTopics, get_or_create_topic, h0]⟩
    · rw [List.find?_cons_of_neg _ h0] at h
      unfold linkTopics get_or_create_topic
      rw [if_neg h0]
      cases hidx : st.topics.findIdx? (· = t0) with
      | none =>
        simp only []
        exact ih h _
      | some i =>
        simp only []
        exact ih h _

/-- C2 (amended): when a node passes every gate up to a successful save and
some extracted topic's persistence fails (`find?` locates the first failing
topic in iteration order), the exception **escapes** `crawl` — the
traversal is aborted rather than continuing. -/
theorem crawl_topic_failure_propagates
    (w : World) (url0 url : String) (maxDepth crawlId depth : Nat) (st : St)
    (p : ParseResultC) (rc : List (String × RobotFileParser)) (fl : List String)
    (ti de : String) (hs ls : List String) (t : String)
    (hnorm : normalize_url url0 = .ok url)
    (hvis : url ∉ st.visited)
    (hdep : depth ≤ maxDepth)
    (hpage : ∀ r ∈ st.pages, r.url ≠ url)
    (hparse : urlparseC url.data = .ok p)
    (hrob : check_robots w.robots st.robotsCache url = .ok (true, rc, fl))
    (hfetch : w.fetch url = .page ti de hs ls)
    (hfail : (extract_topics ti hs).find? w.topicFails = some t) :
    ∃ stE, crawl w url0 maxDepth crawlId depth st
      = .error (.exc ("topic error: " ++ t), stE) := by
  unfold crawl
  have hfuel : maxDepth + 2 - depth = (maxDepth + 1 - depth) + 1 := by omega
  rw [hfuel]
  simp only [crawlF, hnorm]
  rw [if_neg (by simp only [not_or]; exact ⟨hvis, by omega⟩)]
  have hpe : page_exists { st with visited := st.visited ++ [url] } url = false := by
    unfold page_exists
    rw [List.any_eq_false]
    intro r hr
    simpa using hpage r hr
  simp only [hpe, Bool.false_eq_true, if_false, hparse, hrob, not_true,
    Bool.not_true, hfetch]
  have hpe3 : page_exists
      { st with
        visited := st.visited ++ [url]
        robotsCache := rc
        robotsFetched := st.robotsFetched ++ fl
        trace := st.trace ++ [(url, depth)] } url = false := by
    unfold page_exists
    rw [List.any_eq_false]
    intro r hr
    simpa using hpage r hr
  simp only [save_page, hpe3, Bool.false_eq_true, if_false]
  obtain ⟨stE, hE⟩ := linkTopics_find_fail w _ _ t hfail
    { st with
      visited := st.visited ++ [url]
      robotsCache := rc
      robotsFetched := st.robotsFetched ++ fl
      trace := st.trace ++ [(url, depth)]
      pages := st.pages ++ [⟨url, ti, de, ⟨lowerS p.netloc⟩, depth, crawlId⟩] }
  rw [hE]
  exact ⟨stE, rfl⟩

/-- Witness for C2 (amended): the propagation theorem applied at the
concrete failing world. -/
theorem crawl_topic_failure_propagates_witness :
    runExc (crawl topicFailWorld "https://seed.edu" 1 3 0 (initSt [] []))
      = some (.exc "topic error: solar") := by
  obtain ⟨stE, h⟩ := crawl_topic_failure_propagates topicFailWorld
    "https://seed.edu" "https://seed.edu/" 1 3 0 (initSt [] [])
    ⟨"https".data, "seed.edu".data, "/".data, [], [], []⟩
    [("seed.edu", { disallow_all := false, allow_all := false,
                    last_checked := true, entries := [], default_entry := none })]
    ["https://seed.edu/robots.txt"]
    "Solar Energy" "" [] ["https://seed.edu/next"] "solar"
    (by rfl) (by simp [initSt]) (by omega) (by simp [initSt]) (by rfl) (by rfl)
    (by rfl) (by rfl)
  rw [h]
  rfl

/-! ## C4: the returned count is the number of newly saved pages -/

theorem link_page_topic_fields (st : St) (pid tid : Nat) :
    (link_page_topic st pid tid).visited = st.visited
    ∧ (link_page_topic st pid tid).pages = st.pages
    ∧ (link_page_topic st pid tid).trace = st.trace := by
  unfold link_page_topic
  split <;> exact ⟨rfl, rfl, rfl⟩

theorem linkTopics_preserves (w : World) (pid : Nat) (ts : List String) :
    ∀ st : St,
      (ltSt (linkTopics w pid ts st)).visited = st.visited
      ∧ (ltSt (linkTopics w pid ts st)).pages = st.pages
      ∧ (ltSt (linkTopics w pid ts st)).trace = st.trace := by
  induction ts with
  | nil => exact fun st => ⟨rfl, rfl, rfl⟩
  | cons t0 rest ih =>
    intro st
    unfold linkTopics get_or_create_topic
    by_cases h0 : w.topicFails t0
    · rw [if_pos h0]
      exact ⟨rfl, rfl, rfl⟩
    · rw [if_neg h0]
      cases hidx : st.topics.findIdx? (· = t0) with
      | none =>
        simp only []
        obtain ⟨v1, p1, t1⟩ :=
          ih (link_page_topic { st with topics := st.topics ++ [t0] } pid st.topics.length)
        obtain ⟨v2, p2, t2⟩ :=
          link_page_topic_fields { st with topics := st.topics ++ [t0] } pid st.topics.length
        exact ⟨v1.trans v2, p1.trans p2, t1.trans t2⟩
      | some i =>
        simp only []
        obtain ⟨v1, p1, t1⟩ := ih (link_page_topic st pid i)
        obtain ⟨v2, p2, t2⟩ := link_page_topic_fields st pid i
        exact ⟨v1.trans v2, p1.trans p2, t1.trans t2⟩

theorem crawlLoop_pages
    (rec : String → St → Except (PyExc × St) (Nat × St))
    (hrec : ∀ l s n s', rec l s = .ok (n, s') → s'.pages.length = s.pages.length + n) :
    ∀ (ls : List String) (acc : Nat) (st : St) (n : Nat) (st' : St),
      crawlLoop rec ls acc st = .ok (n, st') →
      st'.pages.length + acc = st.pages.length + n := by
  intro ls
  induction ls with
  | nil =>
    intro acc st n st' h
    simp only [crawlLoop, Except.ok.injEq, Prod.mk.injEq] at h
    obtain ⟨rfl, rfl⟩ := h
    omega
  | cons l tail ih =>
    intro acc st n st' h
    unfold crawlLoop at h
    split at h
    · cases h
    · split at h
      · exact ih _ _ _ _ h
      · split at h
        · cases h
        · exact ih _ _ _ _ h
        · split at h
          · cases h
          · exact ih _ _ _ _ h
          · split at h
            · cases h
            · rename_i link _ _ _ _ pr hr
              have h1 := hrec _ _ _ _ hr
              have h2 := ih _ _ _ _ h
              omega

theorem save_page_none_pages {st : St} {url title description domain : String}
    {dep cid : Nat} {st4 : St}
    (h : save_page st url title description domain dep cid = (none, st4)) :
    st4.pages = st.pages := by
  unfold save_page at h
  split at h
  · simp only [Prod.mk.injEq] at h
    rw [← h.2]
  · simp at h

theorem save_page_some_pages {st : St} {url title description domain : String}
    {dep cid : Nat} {pid : Nat} {st4 : St}
    (h : save_page st url title description domain dep cid = (some pid, st4)) :
    st4.pages.length = st.pages.length + 1 := by
  unfold save_page at h
  split at h
  · simp at h
  · simp only [Prod.mk.injEq] at h
    rw [← h.2]
    simp

theorem crawlF_pages (w : World) (maxD cid : Nat) :
    ∀ (fuel : Nat) (url0 : String) (depth : Nat) (st : St) (n : Nat) (st' : St),
      crawlF w maxD cid fuel url0 depth st = .ok (n, st') →
      st'.pages.length = st.pages.length + n := by
  intro fuel
  induction fuel with
  | zero =>
    intro url0 depth st n st' h
    simp only [crawlF, Except.ok.injEq, Prod.mk.injEq] at h
    obtain ⟨rfl, rfl⟩ := h
    omega
  | succ fuel ih =>
    intro url0 depth st n st' h
    unfold crawlF at h
    split at h
    · cases h
    · split at h
      · -- gate: visited or too deep
        simp only [Except.ok.injEq, Prod.mk.injEq] at h
        obtain ⟨rfl, rfl⟩ := h
        simp
      · simp only [] at h
        split at h
        · -- page already in store
          simp only [Except.ok.injEq, Prod.mk.injEq] at h
          obtain ⟨rfl, rfl⟩ := h
          simp
        · split at h
          · cases h
          · split at h
            · cases h
            · split at h
              · -- robots disallows
                simp only [Except.ok.injEq, Prod.mk.injEq] at h
                obtain ⟨rfl, rfl⟩ := h
                simp
              · split at h
                · cases h
                · -- fetch raises Exception
                  simp only [Except.ok.injEq, Prod.mk.injEq] at h
                  obtain ⟨rfl, rfl⟩ := h
                  simp
                · -- non-HTML
                  simp only [Except.ok.injEq, Prod.mk.injEq] at h
                  obtain ⟨rfl, rfl⟩ := h
                  simp
                · -- an HTML page was parsed
                  rename_i ti de hds lks hfe
                  split at h
                  · -- duplicate at save time
                    rename_i st4 hsv
                    simp only [Except.ok.injEq, Prod.mk.injEq] at h
                    obtain ⟨rfl, rfl⟩ := h
                    rw [save_page_none_pages hsv]
                    simp
                  · rename_i pid st4 hsv
                    have h4 := save_page_some_pages hsv
                    split at h
                    · cases h
                    · rename_i st5 hlt
                      have hp5 :=
                        (linkTopics_preserves w pid (extract_topics ti hds) st4).2.1
                      rw [hlt] at hp5
                      simp only [ltSt] at hp5
                      have h4' : st4.pages.length = st.pages.length + 1 := h4
                      split at h
                      · have hlp := crawlLoop_pages _
                          (fun l s m s' hh => ih l (depth + 1) s m s' hh)
                          _ 1 st5 n st' h
                        rw [hp5] at hlp
                        omega
                      · simp only [Except.ok.injEq, Prod.mk.injEq] at h
                        obtain ⟨rfl, rfl⟩ := h
                        rw [hp5]
                        omega

/-- C4 (confirmed): the integer `crawl` returns equals the number of pages
newly saved in that invocation's subtree (the growth of the `pages`
table); every gate contributes 0 and a successful save contributes 1 plus
the recursed counts. -/
theorem crawl_count_newly_saved (w : World) (url : String)
    (maxD cid depth : Nat) (st : St) (n : Nat) (st' : St)
    (h : crawl w url maxD cid depth st = .ok (n, st')) :
    st'.pages.length = st.pages.length + n :=
  crawlF_pages w maxD cid _ url depth st n st' h

/-- Witness for C4 at the demo world (seed plus one of two links saved:
the count 2 matches the two page rows). -/
theorem crawl_count_newly_saved_witness :
    (finalSt (crawl demoWorld "https://example.edu" 1 7 0 (initSt [] []))).pages.length
      = (initSt [] []).pages.length
        + runCount (crawl demoWorld "https://example.edu" 1 7 0 (initSt [] [])) := by
  have h : crawl demoWorld "https://example.edu" 1 7 0 (initSt [] [])
      = .ok (runCount (crawl demoWorld "https://example.edu" 1 7 0 (initSt [] [])),
             finalSt (crawl demoWorld "https://example.edu" 1 7 0 (initSt [] []))) := by
    rfl
  exact crawl_count_newly_saved demoWorld "https://example.edu" 1 7 0
    (initSt [] []) _ _ h

/-! ## C5: the crawl job reaches exactly one terminal state -/

/-- C5 (confirmed): one run takes the job from `running` to exactly one
terminal status — `done` with the returned count on normal completion,
`interrupted` with the store's page count for this job when a
`KeyboardInterrupt` escapes the traversal, `error` with count 0 when any
other exception escapes — and the status history is exactly
`[running, terminal]`: the job never re-enters `running`. -/
theorem crawl_job_terminal (w : World) (seed : String) (maxD cid : Nat) (st0 : St) :
    (mainRun w seed maxD cid st0).1.statusHistory
      = ["running", (mainRun w seed maxD cid st0).1.status]
    ∧ (mainRun w seed maxD cid st0).1.status ≠ "running"
    ∧ (match crawl w seed maxD cid 0 st0 with
       | .ok (n, _) =>
         (mainRun w seed maxD cid st0).1.status = "done"
         ∧ (mainRun w seed maxD cid st0).1.pagesFound = n
       | .error (.keyboardInterrupt, stE) =>
         (mainRun w seed maxD cid st0).1.status = "interrupted"
         ∧ (mainRun w seed maxD cid st0).1.pagesFound
           = (stE.pages.filter (·.crawlId = cid)).length
       | .error (.exc _, _) =>
         (mainRun w seed maxD cid st0).1.status = "error"
         ∧ (mainRun w seed maxD cid st0).1.pagesFound = 0) := by
  unfold mainRun
  cases hr : crawl w seed maxD cid 0 st0 with
  | ok pr =>
    obtain ⟨n, st⟩ := pr
    exact ⟨rfl, (by decide : ("done" : String) ≠ "running"), rfl, rfl⟩
  | error pr =>
    obtain ⟨e, st⟩ := pr
    cases e with
    | keyboardInterrupt =>
      exact ⟨rfl, (by decide : ("interrupted" : String) ≠ "running"), rfl, rfl⟩
    | exc m =>
      exact ⟨rfl, (by decide : ("error" : String) ≠ "running"), rfl, rfl⟩

/-! ## C10: the robots cache is keyed by netloc alone -/

theorem check_robots_first_fetch
    (oracle : String → RobotsFetchOutcome) (url : String) (p : ParseResultC)
    (hp : urlparseC url.data = .ok p)
    (hki : oracle (robotsUrlOf p) ≠ .raisesKI)
    (b : Bool)
    (hb : (readApply initRFP (oracle (robotsUrlOf p))).can_fetch
        USER_AGENT url.data = .ok b) :
    check_robots oracle [] url
      = .ok (b, [((⟨p.netloc⟩ : String),
                  readApply initRFP (oracle (robotsUrlOf p)))],
             [robotsUrlOf p]) := by
  unfold check_robots
  rw [hp]
  cases ho : oracle (robotsUrlOf p) with
  | raisesKI => exact absurd ho hki
  | ok es de =>
    rw [ho] at hb
    simp only [List.lookup_nil, ho, hb]
    rfl
  | httpError code =>
    rw [ho] at hb
    simp only [List.lookup_nil, ho, hb]
    rfl
  | raises =>
    rw [ho] at hb
    simp only [List.lookup_nil, ho, hb]
    rfl

theorem check_robots_cache_hit
    (oracle : String → RobotsFetchOutcome)
    (cache : List (String × RobotFileParser)) (url : String)
    (p : ParseResultC) (rp : RobotFileParser) (b : Bool)
    (hp : urlparseC url.data = .ok p)
    (hc : cache.lookup ((⟨p.netloc⟩ : String)) = some rp)
    (hb : rp.can_fetch USER_AGENT url.data = .ok b) :
    check_robots oracle cache url = .ok (b, cache, []) := by
  unfold check_robots
  rw [hp]
  simp only [hc, hb]

theorem checkRobotsSeq_cache_hits
    (oracle : String → RobotsFetchOutcome) (d : String) (rp : RobotFileParser)
    (urls : List String)
    (hdom : ∀ u ∈ urls, ∃ p, urlparseC u.data = .ok p ∧ (⟨p.netloc⟩ : String) = d)
    (hcf : ∀ u ∈ urls, ∃ b, rp.can_fetch USER_AGENT u.data = .ok b) :
    ∃ results,
      checkRobotsSeq oracle [(d, rp)] urls = .ok (results, [(d, rp)], [])
      ∧ List.Forall₂ (fun u b => rp.can_fetch USER_AGENT u.data = .ok b)
          urls results := by
  induction urls with
  | nil => exact ⟨[], rfl, .nil⟩
  | cons u us ih =>
    obtain ⟨p, hp, hd⟩ := hdom u (List.mem_cons_self _ _)
    obtain ⟨b, hb⟩ := hcf u (List.mem_cons_self _ _)
    obtain ⟨results, hseq, hfa⟩ :=
      ih (fun v hv => hdom v (List.mem_cons_of_mem _ hv))
        (fun v hv => hcf v (List.mem_cons_of_mem _ hv))
    have hlk : ([(d, rp)] : List (String × RobotFileParser)).lookup
        ((⟨p.netloc⟩ : String)) = some rp := by
      rw [hd]
      simp [List.lookup]
    have hcr := check_robots_cache_hit oracle [(d, rp)] u p rp b hp hlk hb
    refine ⟨b :: results, ?_, .cons hb hfa⟩
    unfold checkRobotsSeq
    simp only [hcr, hseq]
    rfl

/-- C10 (confirmed): the robots cache is keyed by netloc alone.  For a
sequence of `check_robots` calls on URLs sharing one netloc, the first
call fetches exactly `{first scheme}://{netloc}/robots.txt` and caches the
resulting parser; every later call — whatever its scheme — is decided by
that cached parser, and no other robots.txt (in particular not the other
scheme's) is ever fetched. -/
theorem robots_cache_keyed_by_netloc
    (oracle : String → RobotsFetchOutcome) (url₁ : String) (urls : List String)
    (p₁ : ParseResultC)
    (h₁ : urlparseC url₁.data = .ok p₁)
    (hki : oracle (robotsUrlOf p₁) ≠ .raisesKI)
    (hdom : ∀ u ∈ urls, ∃ p, urlparseC u.data = .ok p ∧ p.netloc = p₁.netloc)
    (hcf : ∀ u ∈ url₁ :: urls, ∃ b,
        (readApply initRFP (oracle (robotsUrlOf p₁))).can_fetch
          USER_AGENT u.data = .ok b) :
    ∃ results,
      checkRobotsSeq oracle [] (url₁ :: urls)
        = .ok (results,
               [((⟨p₁.netloc⟩ : String), readApply initRFP (oracle (robotsUrlOf p₁)))],
               [robotsUrlOf p₁])
      ∧ List.Forall₂ (fun u b =>
          (readApply initRFP (oracle (robotsUrlOf p₁))).can_fetch
            USER_AGENT u.data = .ok b)
        (url₁ :: urls) results := by
  obtain ⟨b₁, hb₁⟩ := hcf url₁ (List.mem_cons_self _ _)
  have hfirst := check_robots_first_fetch oracle url₁ p₁ h₁ hki b₁ hb₁
  obtain ⟨results, hseq, hfa⟩ := checkRobotsSeq_cache_hits oracle
    ((⟨p₁.netloc⟩ : String)) (readApply initRFP (oracle (robotsUrlOf p₁))) urls
    (fun u hu => by
      obtain ⟨p, hp, hn⟩ := hdom u hu
      exact ⟨p, hp, by rw [hn]⟩)
    (fun u hu => hcf u (List.mem_cons_of_mem _ hu))
  refine ⟨b₁ :: results, ?_, .cons hb₁ hfa⟩
  unfold checkRobotsSeq
  simp only [hfirst, hseq]
  rfl

/-- Witness for C10: host `h.edu` whose HTTP robots.txt disallows
everything; the HTTPS URL of the same netloc is decided by the cached
HTTP policy (denied), and the HTTPS robots.txt is never fetched. -/
theorem robots_cache_keyed_by_netloc_witness :
    checkRobotsSeq schemeSensitiveOracle [] ["http://h.edu/x", "https://h.edu/y"]
      = .ok ([false, false],
             [("h.edu",
               readApply initRFP (schemeSensitiveOracle "http://h.edu/robots.txt"))],
             ["http://h.edu/robots.txt"]) := by
  obtain ⟨results, hseq, hfa⟩ := robots_cache_keyed_by_netloc
    schemeSensitiveOracle "http://h.edu/x" ["https://h.edu/y"]
    ⟨"http".data, "h.edu".data, "/x".data, [], [], []⟩
    (by rfl)
    (by decide)
    (by
      intro u hu
      rw [List.mem_singleton] at hu
      subst hu
      exact ⟨⟨"https".data, "h.edu".data, "/y".data, [], [], []⟩, rfl, rfl⟩)
    (by
      intro u hu
      rcases List.mem_cons.mp hu with rfl | hu
      · exact ⟨false, rfl⟩
      · rw [List.mem_singleton] at hu
        subst hu
        exact ⟨false, rfl⟩)
  have hres2 : results = [false, false] := by
    cases hfa with
    | cons hb hfa2 =>
      cases hfa2 with
      | cons hb2 hfa3 =>
        cases hfa3
        cases hb.symm.trans (show (readApply initRFP
            (schemeSensitiveOracle "http://h.edu/robots.txt")).can_fetch
            USER_AGENT "http://h.edu/x".data = .ok false from rfl)
        cases hb2.symm.trans (show (readApply initRFP
            (schemeSensitiveOracle "http://h.edu/robots.txt")).can_fetch
            USER_AGENT "https://h.edu/y".data = .ok false from rfl)
        rfl
  rw [hres2] at hseq
  exact hseq

/-! ## C3: no canonical URL is fetched twice; the depth bound holds -/

theorem save_page_none_state {st : St} {url title description domain : String}
    {dep cid : Nat} {st4 : St}
    (h : save_page st url title description domain dep cid = (none, st4)) :
    st4 = st := by
  unfold save_page at h
  split at h
  · simp only [Prod.mk.injEq] at h
    exact h.2.symm
  · simp at h

theorem save_page_some_fields {st : St} {url title description domain : String}
    {dep cid : Nat} {pid : Nat} {st4 : St}
    (h : save_page st url title description domain dep cid = (some pid, st4)) :
    st4.visited = st.visited ∧ st4.trace = st.trace := by
  unfold save_page at h
  split at h
  · simp at h
  · simp only [Prod.mk.injEq] at h
    rw [← h.2]
    exact ⟨rfl, rfl⟩

/-- The fetch-trace invariant of the link loop: visited only grows, new
fetch events are fresh with respect to the entry visited set, pairwise
distinct, recorded in the new visited block, and their depths lie between
the child depth and the depth bound. -/
theorem crawlLoop_trace_inv
    (rec : String → St → Except (PyExc × St) (Nat × St)) (maxD depth : Nat)
    (hrec : ∀ l s, ∃ V E,
      (finalSt (rec l s)).visited = s.visited ++ V
      ∧ (finalSt (rec l s)).trace = s.trace ++ E
      ∧ (E.map Prod.fst).Nodup
      ∧ ∀ e ∈ E, e.1 ∈ V ∧ e.1 ∉ s.visited ∧ depth + 1 ≤ e.2 ∧ e.2 ≤ maxD) :
    ∀ (ls : List String) (acc : Nat) (st : St)
      (r : Except (PyExc × St) (Nat × St)),
      crawlLoop rec ls acc st = r →
      ∃ V E,
        (finalSt r).visited = st.visited ++ V
        ∧ (finalSt r).trace = st.trace ++ E
        ∧ (E.map Prod.fst).Nodup
        ∧ ∀ e ∈ E, e.1 ∈ V ∧ e.1 ∉ st.visited ∧ depth + 1 ≤ e.2 ∧ e.2 ≤ maxD := by
  intro ls
  induction ls with
  | nil =>
    intro acc st r h
    rw [← h]
    exact ⟨[], [], by simp [crawlLoop, finalSt], by simp [crawlLoop, finalSt],
      by simp, by simp⟩
  | cons l tail ih =>
    intro acc st r h
    unfold crawlLoop at h
    split at h
    · rw [← h]
      exact ⟨[], [], by simp [finalSt], by simp [finalSt], by simp, by simp⟩
    · rename_i link hn
      split at h
      · exact ih acc st r h
      · split at h
        · rw [← h]
          exact ⟨[], [], by simp [finalSt], by simp [finalSt], by simp, by simp⟩
        · exact ih acc st r h
        · split at h
          · rw [← h]
            exact ⟨[], [], by simp [finalSt], by simp [finalSt], by simp, by simp⟩
          · exact ih acc st r h
          · split at h
            · -- the recursive call raised
              rename_i e hr
              rw [← h]
              obtain ⟨V1, E1, hv1, ht1, hn1, hm1⟩ := hrec link st
              rw [hr] at hv1 ht1
              exact ⟨V1, E1, hv1, ht1, hn1, hm1⟩
            · -- the recursive call returned
              rename_i m s1 hr
              obtain ⟨V1, E1, hv1, ht1, hn1, hm1⟩ := hrec link st
              rw [hr] at hv1 ht1
              simp only [finalSt] at hv1 ht1
              obtain ⟨V2, E2, hv2, ht2, hn2, hm2⟩ := ih (acc + m) s1 r h
              refine ⟨V1 ++ V2, E1 ++ E2, ?_, ?_, ?_, ?_⟩
              · rw [hv2, hv1, List.append_assoc]
              · rw [ht2, ht1, List.append_assoc]
              · rw [List.map_append, List.nodup_append]
                refine ⟨hn1, hn2, ?_⟩
                intro a ha1 ha2
                obtain ⟨e1, he1, hfe1⟩ := List.mem_map.mp ha1
                obtain ⟨e2, he2, hfe2⟩ := List.mem_map.mp ha2
                have h1 : a ∈ s1.visited := by
                  rw [hv1]
                  exact List.mem_append_right _ (hfe1 ▸ (hm1 e1 he1).1)
                exact (hfe2 ▸ (hm2 e2 he2).2.1) h1
              · intro e he
                rcases List.mem_append.mp he with he | he
                · obtain ⟨h1, h2, h3, h4⟩ := hm1 e he
                  exact ⟨List.mem_append_left _ h1, h2, h3, h4⟩
                · obtain ⟨h1, h2, h3, h4⟩ := hm2 e he
                  refine ⟨List.mem_append_right _ h1, ?_, h3, h4⟩
                  intro hmem
                  exact h2 (by rw [hv1]; exact List.mem_append_left _ hmem)

/-- The fetch-trace invariant of `crawlF`. -/
theorem crawlF_trace_inv (w : World) (maxD cid : Nat) :
    ∀ (fuel : Nat) (url0 : String) (depth : Nat) (st : St)
      (r : Except (PyExc × St) (Nat × St)),
      crawlF w maxD cid fuel url0 depth st = r →
      ∃ V E,
        (finalSt r).visited = st.visited ++ V
        ∧ (finalSt r).trace = st.trace ++ E
        ∧ (E.map Prod.fst).Nodup
        ∧ ∀ e ∈ E, e.1 ∈ V ∧ e.1 ∉ st.visited ∧ depth ≤ e.2 ∧ e.2 ≤ maxD := by
  intro fuel
  induction fuel with
  | zero =>
    intro url0 depth st r h
    rw [← h]
    exact ⟨[], [], by simp [crawlF, finalSt], by simp [crawlF, finalSt],
      by simp, by simp⟩
  | succ fuel ih =>
    intro url0 depth st r h
    unfold crawlF at h
    split at h
    · rw [← h]
      exact ⟨[], [], by simp [finalSt], by simp [finalSt], by simp, by simp⟩
    · rename_i url hn
      split at h
      · rw [← h]
        exact ⟨[], [], by simp [finalSt], by simp [finalSt], by simp, by simp⟩
      · rename_i hg
        rw [not_or] at hg
        obtain ⟨hvis, hdeep⟩ := hg
        have hdep : depth ≤ maxD := by omega
        simp only [] at h
        split at h
        · rw [← h]
          exact ⟨[url], [], by simp [finalSt], by simp [finalSt], by simp, by simp⟩
        · split at h
          · rw [← h]
            exact ⟨[url], [], by simp [finalSt], by simp [finalSt], by simp,
              by simp⟩
          · split at h
            · -- check_robots raised
              rw [← h]
              exact ⟨[url], [], by simp [finalSt], by simp [finalSt], by simp,
                by simp⟩
            · split at h
              · -- robots disallows
                rw [← h]
                exact ⟨[url], [], by simp [finalSt], by simp [finalSt], by simp,
                  by simp⟩
              · split at h
                · -- fetch: KeyboardInterrupt
                  rw [← h]
                  exact ⟨[url], [(url, depth)], by simp [finalSt],
                    by simp [finalSt], by simp, by simp [hvis, hdep]⟩
                · -- fetch: Exception
                  rw [← h]
                  exact ⟨[url], [(url, depth)], by simp [finalSt],
                    by simp [finalSt], by simp, by simp [hvis, hdep]⟩
                · -- fetch: non-HTML
                  rw [← h]
                  exact ⟨[url], [(url, depth)], by simp [finalSt],
                    by simp [finalSt], by simp, by simp [hvis, hdep]⟩
                · -- fetch: an HTML page
                  rename_i ti de hds lks hfe
                  split at h
                  · -- duplicate at save time
                    rename_i st4 hsv
                    have h4 := save_page_none_state hsv
                    rw [← h]
                    refine ⟨[url], [(url, depth)], ?_, ?_, by simp,
                      by simp [hvis, hdep]⟩
                    · simp only [finalSt, h4]
                    · simp only [finalSt, h4]
                  · rename_i pid st4 hsv
                    obtain ⟨h4v, h4t⟩ := save_page_some_fields hsv
                    have h4v' : st4.visited = st.visited ++ [url] := h4v
                    have h4t' : st4.trace = st.trace ++ [(url, depth)] := h4t
                    split at h
                    · -- linkTopics raised
                      rename_i e hlt
                      have hp := linkTopics_preserves w pid
                        (extract_topics ti hds) st4
                      rw [hlt] at hp
                      simp only [ltSt] at hp
                      rw [← h]
                      obtain ⟨ex, stE⟩ := e
                      refine ⟨[url], [(url, depth)], ?_, ?_, by simp,
                        by simp [hvis, hdep]⟩
                      · simp only [finalSt]
                        rw [hp.1, h4v']
                      · simp only [finalSt]
                        rw [hp.2.2, h4t']
                    · rename_i st5 hlt
                      have hp := linkTopics_preserves w pid
                        (extract_topics ti hds) st4
                      rw [hlt] at hp
                      simp only [ltSt] at hp
                      have h5v : st5.visited = st.visited ++ [url] := by
                        rw [hp.1, h4v']
                      have h5t : st5.trace = st.trace ++ [(url, depth)] := by
                        rw [hp.2.2, h4t']
                      split at h
                      · -- recurse into the links
                        obtain ⟨V2, E2, hv2, ht2, hn2, hm2⟩ :=
                          crawlLoop_trace_inv
                            (fun l s => crawlF w maxD cid fuel l (depth + 1) s)
                            maxD depth (fun l s => ih l (depth + 1) s _ rfl)
                            lks 1 st5 r h
                        refine ⟨url :: V2, (url, depth) :: E2, ?_, ?_, ?_, ?_⟩
                        · rw [hv2, h5v]
                          simp
                        · rw [ht2, h5t]
                          simp
                        · rw [List.map_cons, List.nodup_cons]
                          refine ⟨?_, hn2⟩
                          intro hmem
                          obtain ⟨e2, he2, hfe2⟩ := List.mem_map.mp hmem
                          have hni : e2.1 ∉ st5.visited := (hm2 e2 he2).2.1
                          rw [h5v] at hni
                          exact hni (List.mem_append_right _
                            (hfe2 ▸ List.mem_singleton_self url))
                        · intro e he
                          rcases List.mem_cons.mp he with rfl | he
                          · exact ⟨List.mem_cons_self _ _, hvis, Nat.le_refl _,
                              hdep⟩
                          · obtain ⟨h1, h2, h3, h4⟩ := hm2 e he
                            refine ⟨List.mem_cons_of_mem _ h1, ?_, by omega, h4⟩
                            intro hmem
                            refine h2 ?_
                            rw [h5v]
                            exact List.mem_append_left _ hmem
                      · -- depth = maxDepth: no recursion
                        rw [← h]
                        refine ⟨[url], [(url, depth)], ?_, ?_, by simp,
                          by simp [hvis, hdep]⟩
                        · simp only [finalSt]
                          rw [h5v]
                        · simp only [finalSt]
                          rw [h5t]

/-- With `max_depth = 0` the traversal records at most the seed's own fetch
(the `depth < max_depth` guard blocks every recursion). -/
theorem crawlF_depth0_only_seed (w : World) (cid fuel : Nat) (seed : String)
    (st : St) (hst : st.trace = [])
    (r : Except (PyExc × St) (Nat × St))
    (h : crawlF w 0 cid fuel seed 0 st = r) :
    ∀ e ∈ (finalSt r).trace, normalize_url seed = .ok e.1 ∧ e.2 = 0 := by
  cases fuel with
  | zero =>
    simp only [crawlF] at h
    rw [← h]
    simp [finalSt, hst]
  | succ fuel =>
    unfold crawlF at h
    split at h
    · rw [← h]; simp [finalSt, hst]
    · rename_i url hn
      split at h
      · rw [← h]; simp [finalSt, hst]
      · simp only [] at h
        split at h
        · rw [← h]; simp [finalSt, hst]
        · split at h
          · rw [← h]; simp [finalSt, hst]
          · split at h
            · rw [← h]; simp [finalSt, hst]
            · split at h
              · rw [← h]; simp [finalSt, hst]
              · split at h
                · rw [← h]
                  intro e he
                  simp only [finalSt, hst] at he
                  simp at he
                  rw [he]
                  exact ⟨hn, rfl⟩
                · rw [← h]
                  intro e he
                  simp only [finalSt, hst] at he
                  simp at he
                  rw [he]
                  exact ⟨hn, rfl⟩
                · rw [← h]
                  intro e he
                  simp only [finalSt, hst] at he
                  simp at he
                  rw [he]
                  exact ⟨hn, rfl⟩
                · rename_i ti de hds lks hfe
                  split at h
                  · rename_i st4 hsv
                    have h4 := save_page_none_state hsv
                    rw [← h]
                    intro e he
                    simp only [finalSt, h4, hst] at he
                    simp at he
                    rw [he]
                    exact ⟨hn, rfl⟩
                  · rename_i pid st4 hsv
                    obtain ⟨h4v, h4t⟩ := save_page_some_fields hsv
                    have h4t' : st4.trace = st.trace ++ [(url, 0)] := h4t
                    split at h
                    · rename_i e hlt
                      have hp := linkTopics_preserves w pid
                        (extract_topics ti hds) st4
                      rw [hlt] at hp
                      simp only [ltSt] at hp
                      rw [← h]
                      obtain ⟨ex, stE⟩ := e
                      intro e he
                      simp only [finalSt] at he
                      rw [hp.2.2, h4t', hst] at he
                      simp at he
                      rw [he]
                      exact ⟨hn, rfl⟩
                    · rename_i st5 hlt
                      have hp := linkTopics_preserves w pid
                        (extract_topics ti hds) st4
                      rw [hlt] at hp
                      simp only [ltSt] at hp
                      rw [if_neg (Nat.lt_irrefl 0)] at h
                      rw [← h]
                      intro e he
                      simp only [finalSt] at he
                      rw [hp.2.2, h4t', hst] at he
                      simp at he
                      rw [he]
                      exact ⟨hn, rfl⟩

/-- C3 (confirmed): within one top-level `crawl` invocation (one shared
visited set) no canonical URL is fetched twice, no fetch happens at a
depth above `max_depth`, every fetched URL has been added to the visited
set, and with `max_depth = 0` only the (normalised) seed is fetched, at
depth 0, with no recursion into links. -/
theorem crawl_no_refetch_depth_bound (w : World) (seed : String)
    (maxD cid : Nat) (pages0 : List PageRow)
    (rc : List (String × RobotFileParser)) :
    ((finalSt (crawl w seed maxD cid 0 (initSt pages0 rc))).trace.map
      Prod.fst).Nodup
    ∧ (∀ e ∈ (finalSt (crawl w seed maxD cid 0 (initSt pages0 rc))).trace,
        e.2 ≤ maxD)
    ∧ (∀ e ∈ (finalSt (crawl w seed maxD cid 0 (initSt pages0 rc))).trace,
        e.1 ∈ (finalSt (crawl w seed maxD cid 0 (initSt pages0 rc))).visited)
    ∧ (maxD = 0 →
        ∀ e ∈ (finalSt (crawl w seed maxD cid 0 (initSt pages0 rc))).trace,
          normalize_url seed = .ok e.1 ∧ e.2 = 0) := by
  have heq : crawl w seed maxD cid 0 (initSt pages0 rc)
      = crawlF w maxD cid (maxD + 2 - 0) seed 0 (initSt pages0 rc) := rfl
  obtain ⟨V, E, hv, ht, hnd, hm⟩ := crawlF_trace_inv w maxD cid (maxD + 2 - 0)
    seed 0 (initSt pages0 rc) _ rfl
  have htr : (finalSt (crawl w seed maxD cid 0 (initSt pages0 rc))).trace = E := by
    rw [heq, ht]
    simp [initSt]
  refine ⟨?_, ?_, ?_, ?_⟩
  · rw [htr]
    exact hnd
  · rw [htr]
    intro e he
    exact (hm e he).2.2.2
  · intro e he
    rw [htr] at he
    rw [heq, hv]
    exact List.mem_append_right _ (hm e he).1
  · intro h0
    subst h0
    exact crawlF_depth0_only_seed w cid (0 + 2 - 0) seed (initSt pages0 rc)
      rfl _ rfl

/-! ## C9: `normalize_url` is not idempotent in general

With path parameters (a `;` in the path), `_splitparams` splits at the
first `;` after the *last* `/`; stripping a trailing slash can move that
boundary, so a second normalisation splits — and hence rebuilds — the path
differently.  `normalize_url("http://h/a/;b/") = "http://h/a/;b"`, but
normalising again gives `"http://h/a;b"`. -/

/-- Counterexample to C9 as stated: `normalize_url` is not a fixed point on
its own output for `http://h/a/;b/`. -/
theorem normalize_url_not_idempotent_cex :
    normalize_url "http://h/a/;b/" = .ok "http://h/a/;b"
    ∧ normalize_url "http://h/a/;b" = .ok "http://h/a;b"
    ∧ ("http://h/a;b" : String) ≠ "http://h/a/;b" := by
  exact ⟨rfl, rfl, by decide⟩

/-! ### Toolkit for the idempotence proof -/

theorem dropWhile_head_false {p : Char → Bool} {l : Chars} {c : Char}
    {t : Chars} (h : l.dropWhile p = c :: t) : p c = false := by
  induction l with
  | nil => cases h
  | cons a l ih =>
    rw [List.dropWhile_cons] at h
    split at h
    · exact ih h
    · cases h
      rename_i hpa
      simpa using hpa

theorem dropWhile_append_stop {p : Char → Bool} {d : Char} (hd : p d = false)
    (x y : Chars) : (x ++ d :: y).dropWhile p = x.dropWhile p ++ d :: y := by
  induction x with
  | nil => simp [List.dropWhile_cons, hd]
  | cons a x ih =>
    rw [List.cons_append, List.dropWhile_cons, List.dropWhile_cons]
    split
    · exact ih
    · rfl

theorem takeWhile_append_all {p : Char → Bool} {a b : Chars}
    (ha : ∀ c ∈ a, p c = true)
    (hb : b = [] ∨ ∃ c t, b = c :: t ∧ p c = false) :
    (a ++ b).takeWhile p = a := by
  induction a with
  | nil =>
    rcases hb with rfl | ⟨c, t, rfl, hc⟩
    · rfl
    · simp [List.takeWhile_cons, hc]
  | cons x a ih =>
    rw [List.cons_append, List.takeWhile_cons, ha x (List.mem_cons_self _ _)]
    rw [ih (fun c hc => ha c (List.mem_cons_of_mem _ hc))]
    rfl

theorem pyRstrip_decomp (c : Char) (l : Chars) :
    ∃ k, l = pyRstrip c l ++ List.replicate k c := by
  refine ⟨(l.reverse.takeWhile (· = c)).length, ?_⟩
  unfold pyRstrip
  have h2 : ∀ b ∈ (l.reverse.takeWhile (· = c)).reverse, b = c := by
    intro b hb
    rw [List.mem_reverse] at hb
    simpa using List.mem_takeWhile_imp hb
  have h3 := List.eq_replicate_of_mem h2
  rw [List.length_reverse] at h3
  calc l = l.reverse.reverse := (List.reverse_reverse l).symm
    _ = (l.reverse.takeWhile (· = c) ++ l.reverse.dropWhile (· = c)).reverse := by
        rw [List.takeWhile_append_dropWhile]
    _ = (l.reverse.dropWhile (· = c)).reverse
          ++ (l.reverse.takeWhile (· = c)).reverse := by rw [List.reverse_append]
    _ = _ := by rw [h3]

theorem mem_pyRstrip_sub {c c' : Char} {l : Chars} (h : c' ∈ pyRstrip c l) :
    c' ∈ l := by
  obtain ⟨k, hk⟩ := pyRstrip_decomp c l
  rw [hk]
  exact List.mem_append_left _ h

theorem pyRstrip_getLast_ne {c : Char} {l : Chars} (h : pyRstrip c l ≠ []) :
    (pyRstrip c l).getLast? ≠ some c := by
  intro hl
  rw [← List.head?_reverse] at hl
  unfold pyRstrip at hl
  rw [List.reverse_reverse] at hl
  cases hr : l.reverse.dropWhile (· = c) with
  | nil => rw [hr] at hl; cases hl
  | cons a t =>
    rw [hr] at hl
    have := dropWhile_head_false hr
    simp at hl
    rw [hl] at this
    simp at this

theorem pyRstrip_eq_self_of_getLast {c : Char} {l : Chars}
    (h : l.getLast? ≠ some c) : pyRstrip c l = l := by
  unfold pyRstrip
  cases hr : l.reverse with
  | nil =>
    have : l = [] := by simpa using congrArg List.reverse hr
    simp [this]
  | cons a t =>
    have ha : a ≠ c := by
      intro hac
      apply h
      rw [← List.head?_reverse, hr, hac]
      rfl
    rw [List.dropWhile_cons, if_neg (by simpa using ha), ← hr,
      List.reverse_reverse]

theorem pyRstrip_idem (c : Char) (l : Chars) :
    pyRstrip c (pyRstrip c l) = pyRstrip c l := by
  by_cases h : pyRstrip c l = []
  · rw [h]; rfl
  · exact pyRstrip_eq_self_of_getLast (pyRstrip_getLast_ne h)

theorem pyRstrip_head {c : Char} {l : Chars} (h : pyRstrip c l ≠ []) :
    (pyRstrip c l).head? = l.head? := by
  obtain ⟨k, hk⟩ := pyRstrip_decomp c l
  conv_rhs => rw [hk]
  cases hm : pyRstrip c l with
  | nil => exact absurd hm h
  | cons a t => simp [hm]

theorem pyRstrip_append_keep {c d : Char} (hd : d ≠ c) (a b : Chars) :
    pyRstrip c (a ++ d :: b) = a ++ d :: pyRstrip c b := by
  unfold pyRstrip
  have h1 : (a ++ d :: b).reverse = b.reverse ++ d :: a.reverse := by
    rw [List.reverse_append, List.reverse_cons, List.append_assoc]
    simp
  rw [h1, dropWhile_append_stop (by simpa using hd)]
  rw [List.reverse_append, List.reverse_cons, List.append_assoc]
  simp

theorem isAsciiAlpha_asciiLower (c : Char) :
    isAsciiAlpha (asciiLower c) = isAsciiAlpha c := by
  by_cases h : 65 ≤ c.toNat ∧ c.toNat ≤ 90
  · have h1 := asciiLower_toNat_of_upper c h
    unfold isAsciiAlpha
    rw [h1, decide_eq_decide]
    omega
  · unfold asciiLower
    rw [if_neg h]

theorem isSchemeChar_asciiLower {c : Char} (h : isSchemeChar c = true) :
    isSchemeChar (asciiLower c) = true := by
  by_cases hu : 65 ≤ c.toNat ∧ c.toNat ≤ 90
  · have h1 : isAsciiAlpha (asciiLower c) = true := by
      unfold isAsciiAlpha
      rw [asciiLower_toNat_of_upper c hu]
      rw [decide_eq_true_eq]
      omega
    unfold isSchemeChar
    rw [h1]
    rfl
  · have : asciiLower c = c := by unfold asciiLower; rw [if_neg hu]
    rw [this]
    exact h

theorem asciiLower_toNat_gt {c : Char} (h : 0x20 < c.toNat) :
    0x20 < (asciiLower c).toNat := by
  unfold asciiLower
  by_cases hu : 65 ≤ c.toNat ∧ c.toNat ≤ 90
  · rw [if_pos hu, toNat_ofNat_valid _ (by left; omega)]
    omega
  · rw [if_neg hu]
    exact h

theorem mem_urlPreprocess {c : Char} {l : Chars} (h : c ∈ urlPreprocess l) :
    c ∈ l := by
  unfold urlPreprocess at h
  exact ((List.filter_sublist _).trans (List.dropWhile_sublist _)).subset h

theorem urlPreprocess_unsafe_free {c : Char} {l : Chars}
    (h : c ∈ urlPreprocess l) : ¬(c = '\t' ∨ c = '\r' ∨ c = '\n') := by
  unfold urlPreprocess at h
  have hb := (List.mem_filter.mp h).2
  exact of_decide_eq_true hb

theorem urlPreprocess_head {l : Chars} {c : Char}
    (h : (urlPreprocess l).head? = some c) : 0x20 < c.toNat := by
  unfold urlPreprocess at h
  cases hd : l.dropWhile (fun c => c.toNat ≤ 0x20) with
  | nil => rw [hd] at h; cases h
  | cons a t =>
    have ha : (decide (a.toNat ≤ 0x20)) = false := dropWhile_head_false hd
    have ha2 : 0x20 < a.toNat := by simpa using ha
    rw [hd] at h
    have hkeep : (decide ¬(a = '\t' ∨ a = '\r' ∨ a = '\n')) = true := by
      rw [decide_eq_true_eq]
      rintro (rfl | rfl | rfl) <;> simp_all
    rw [List.filter_cons, if_pos hkeep] at h
    simp only [List.head?_cons, Option.some.injEq] at h
    rw [← h]
    exact ha2

theorem urlPreprocess_eq_self {l : Chars}
    (h1 : ∀ c, l.head? = some c → 0x20 < c.toNat)
    (h2 : ∀ c ∈ l, ¬(c = '\t' ∨ c = '\r' ∨ c = '\n')) :
    urlPreprocess l = l := by
  unfold urlPreprocess
  have hd : l.dropWhile (fun c => c.toNat ≤ 0x20) = l := by
    cases l with
    | nil => rfl
    | cons a t =>
      rw [List.dropWhile_cons, if_neg]
      simp only [decide_eq_true_eq, not_le]
      exact h1 a rfl
  rw [hd, List.filter_eq_self.mpr]
  intro c hc
  exact decide_eq_true (h2 c hc)

theorem splitAtFirstChar_append_gen {c : Char} {a : Chars} (h : c ∉ a)
    (b : Chars) :
    splitAtFirstChar c (a ++ b)
      = match splitAtFirstChar c b with
        | none => none
        | some (x, y) => some (a ++ x, y) := by
  induction a with
  | nil =>
    cases hb : splitAtFirstChar c b with
    | none => simp [hb]
    | some pr => obtain ⟨x, y⟩ := pr; simp [hb]
  | cons z a ih =>
    simp only [List.mem_cons, not_or] at h
    have hz : ¬z = c := fun hh => h.1 hh.symm
    rw [List.cons_append]
    rw [show splitAtFirstChar c (z :: (a ++ b))
        = (if z = c then some ([], a ++ b)
           else match splitAtFirstChar c (a ++ b) with
             | some (pre, post) => some (z :: pre, post)
             | none => none) from rfl]
    rw [if_neg hz, ih h.2]
    cases hb : splitAtFirstChar c b with
    | none => rfl
    | some pr => obtain ⟨x, y⟩ := pr; rfl

theorem firstChar_split_unique {c : Char} {l p1 q1 p2 q2 : Chars}
    (h1 : l = p1 ++ c :: q1) (hn1 : c ∉ p1)
    (h2 : l = p2 ++ c :: q2) (hn2 : c ∉ p2) : p1 = p2 ∧ q1 = q2 := by
  have e1 : splitAtFirstChar c l = some (p1, q1) := by
    rw [h1]; exact splitAtFirstChar_append hn1
  have e2 : splitAtFirstChar c l = some (p2, q2) := by
    rw [h2]; exact splitAtFirstChar_append hn2
  rw [e1] at e2
  injection e2 with e3
  exact ⟨congrArg Prod.fst e3, congrArg Prod.snd e3⟩

theorem splitSchemeC_valid {s R : Chars} {c0 : Char} {t : Chars}
    (hs : s = c0 :: t) (ha : isAsciiAlpha c0 = true)
    (hall : s.all isSchemeChar = true) :
    splitSchemeC (s ++ ':' :: R) = (lowerS s, R) := by
  have hcs : ':' ∉ s := by
    intro hmem
    have := List.all_eq_true.mp hall _ hmem
    exact absurd this (by decide)
  subst hs
  unfold splitSchemeC
  rw [splitAtFirstChar_append hcs]
  show (if isAsciiAlpha c0 = true ∧ (c0 :: t).all isSchemeChar = true
      then ((lowerS (c0 :: t), R) : Chars × Chars)
      else ([], (c0 :: t) ++ ':' :: R)) = (lowerS (c0 :: t), R)
  rw [if_pos ⟨ha, hall⟩]

theorem splitSchemeC_inv {l s rest : Chars} (h : splitSchemeC l = (s, rest))
    (hne : s ≠ []) :
    ∃ pre, l = pre ++ ':' :: rest ∧ ':' ∉ pre ∧ s = lowerS pre
      ∧ ∃ c0 t, pre = c0 :: t ∧ isAsciiAlpha c0 = true
        ∧ pre.all isSchemeChar = true := by
  unfold splitSchemeC at h
  cases hsp : splitAtFirstChar ':' l with
  | none =>
    rw [hsp] at h
    injection h with h1 _
    exact absurd h1.symm hne
  | some pr =>
    obtain ⟨pre, post⟩ := pr
    rw [hsp] at h
    obtain ⟨heq, hnm⟩ := splitAtFirstChar_sound hsp
    cases hpre : pre with
    | nil =>
      rw [hpre] at h
      injection h with h1 _
      exact absurd h1.symm hne
    | cons c0 t =>
      rw [hpre] at h
      by_cases hc : isAsciiAlpha c0 = true ∧ (c0 :: t).all isSchemeChar = true
      · have h9 : (if isAsciiAlpha c0 = true ∧ (c0 :: t).all isSchemeChar = true
            then ((lowerS (c0 :: t), post) : Chars × Chars) else ([], l))
            = (s, rest) := h
        rw [if_pos hc] at h9
        injection h9 with h1 h2
        refine ⟨c0 :: t, ?_, ?_, h1.symm, c0, t, rfl, hc.1, hc.2⟩
        · rw [hpre] at heq
          rw [h2] at heq
          exact heq
        · rw [hpre] at hnm
          exact hnm
      · have h9 : (if isAsciiAlpha c0 = true ∧ (c0 :: t).all isSchemeChar = true
            then ((lowerS (c0 :: t), post) : Chars × Chars) else ([], l))
            = (s, rest) := h
        rw [if_neg hc] at h9
        injection h9 with h1 _
        exact absurd h1.symm hne

theorem splitSchemeC_empty {l s rest : Chars} (h : splitSchemeC l = (s, rest))
    (hs : s = []) :
    rest = l ∧ ∀ pre post, l = pre ++ ':' :: post → ':' ∉ pre →
      ¬(∃ c0 t, pre = c0 :: t ∧ isAsciiAlpha c0 = true
          ∧ pre.all isSchemeChar = true) := by
  subst hs
  constructor
  · unfold splitSchemeC at h
    cases hsp : splitAtFirstChar ':' l with
    | none =>
      rw [hsp] at h
      injection h with _ h2
      exact h2.symm
    | some pr =>
      obtain ⟨pre, post⟩ := pr
      rw [hsp] at h
      cases hpre : pre with
      | nil =>
        rw [hpre] at h
        injection h with _ h2
        exact h2.symm
      | cons c0 t =>
        rw [hpre] at h
        by_cases hc : isAsciiAlpha c0 = true ∧ (c0 :: t).all isSchemeChar = true
        · have h9 : (if isAsciiAlpha c0 = true ∧ (c0 :: t).all isSchemeChar = true
              then ((lowerS (c0 :: t), post) : Chars × Chars) else ([], l))
              = ([], rest) := h
          rw [if_pos hc] at h9
          injection h9 with h1 _
          exact absurd h1 (by simp [lowerS])
        · have h9 : (if isAsciiAlpha c0 = true ∧ (c0 :: t).all isSchemeChar = true
              then ((lowerS (c0 :: t), post) : Chars × Chars) else ([], l))
              = ([], rest) := h
          rw [if_neg hc] at h9
          injection h9 with _ h2
          exact h2.symm
  · intro pre post heq hnm hval
    obtain ⟨c0, t, hpre, hα, hall⟩ := hval
    have hsp : splitAtFirstChar ':' l = some (pre, post) := by
      rw [heq]; exact splitAtFirstChar_append hnm
    unfold splitSchemeC at h
    rw [hsp, hpre] at h
    have h9 : (if isAsciiAlpha c0 = true ∧ (c0 :: t).all isSchemeChar = true
        then ((lowerS (c0 :: t), post) : Chars × Chars) else ([], l))
        = ([], rest) := h
    rw [if_pos ⟨hα, by rw [← hpre]; exact hall⟩] at h9
    injection h9 with h1 _
    exact absurd h1 (by simp [lowerS])

theorem splitSchemeC_eq_self_of_not_valid {l : Chars}
    (h : ∀ pre post, l = pre ++ ':' :: post → ':' ∉ pre →
      ¬(∃ c0 t, pre = c0 :: t ∧ isAsciiAlpha c0 = true
          ∧ pre.all isSchemeChar = true)) :
    splitSchemeC l = ([], l) := by
  unfold splitSchemeC
  cases hsp : splitAtFirstChar ':' l with
  | none => rfl
  | some pr =>
    obtain ⟨pre, post⟩ := pr
    obtain ⟨heq, hnm⟩ := splitAtFirstChar_sound hsp
    cases hpre : pre with
    | nil => rfl
    | cons c0 t =>
      have heq9 : l = (c0 :: t) ++ ':' :: post := by rw [← hpre]; exact heq
      have hnm9 : ':' ∉ (c0 :: t) := by rw [← hpre]; exact hnm
      show (if isAsciiAlpha c0 = true ∧ (c0 :: t).all isSchemeChar = true
          then ((lowerS (c0 :: t), post) : Chars × Chars) else ([], l)) = ([], l)
      rw [if_neg (fun hcond =>
        h _ _ heq9 hnm9 ⟨c0, t, rfl, hcond.1, hcond.2⟩)]

theorem splitSchemeC_head_not_alpha {a : Char} {t : Chars}
    (hna : isAsciiAlpha a = false) :
    splitSchemeC (a :: t) = ([], a :: t) := by
  apply splitSchemeC_eq_self_of_not_valid
  intro pre post heq hnm hval
  obtain ⟨c0, s, hpre, hα, _⟩ := hval
  rw [hpre, List.cons_append] at heq
  injection heq with h1 _
  rw [← h1] at hα
  rw [hα] at hna
  cases hna

theorem mem_takeWhile_pred {p : Char → Bool} {l : Chars} {c : Char}
    (h : c ∈ l.takeWhile p) : p c = true := by
  induction l with
  | nil => cases h
  | cons a t ih =>
    rw [List.takeWhile_cons] at h
    by_cases hp : p a = true
    · rw [if_pos hp] at h
      rcases List.mem_cons.mp h with rfl | h2
      · exact hp
      · exact ih h2
    · rw [if_neg hp] at h
      cases h

theorem drop_length_takeWhile (p : Char → Bool) (m : Chars) :
    m.drop (m.takeWhile p).length = m.dropWhile p := by
  induction m with
  | nil => rfl
  | cons a t ih =>
    by_cases hp : p a = true
    · simp only [List.takeWhile_cons, List.dropWhile_cons, hp, if_true,
        List.length_cons, List.drop_succ_cons]
      exact ih
    · have hp2 : p a = false := by simpa using hp
      simp [List.takeWhile_cons, List.dropWhile_cons, hp2]

theorem splitNetlocC_facts {l n r : Chars} (h : splitNetlocC l = (n, r)) :
    (∀ c ∈ n, ¬(c = '/' ∨ c = '?' ∨ c = '#') ∧ c ∈ l) ∧ l = n ++ r
      ∧ (r = [] ∨ ∃ c t, r = c :: t ∧ (c = '/' ∨ c = '?' ∨ c = '#')) := by
  unfold splitNetlocC at h
  simp only [] at h
  injection h with h1 h2
  refine ⟨?_, ?_, ?_⟩
  · intro c hc
    rw [← h1] at hc
    have hb := mem_takeWhile_pred hc
    refine ⟨of_decide_eq_true hb, ?_⟩
    exact (List.takeWhile_sublist _).subset hc
  · rw [← h1, ← h2, drop_length_takeWhile, List.takeWhile_append_dropWhile]
  · rw [← h2, drop_length_takeWhile]
    cases hd : l.dropWhile (fun c => ¬(c = '/' ∨ c = '?' ∨ c = '#')) with
    | nil => exact .inl rfl
    | cons c t =>
      refine .inr ⟨c, t, rfl, ?_⟩
      exact not_not.mp (of_decide_eq_false (dropWhile_head_false hd))

theorem splitNetlocC_append {n r : Chars}
    (hn : ∀ c ∈ n, ¬(c = '/' ∨ c = '?' ∨ c = '#'))
    (hr : r = [] ∨ ∃ c t, r = c :: t ∧ (c = '/' ∨ c = '?' ∨ c = '#')) :
    splitNetlocC (n ++ r) = (n, r) := by
  unfold splitNetlocC
  have ht : (n ++ r).takeWhile (fun c => ¬(c = '/' ∨ c = '?' ∨ c = '#')) = n := by
    apply takeWhile_append_all
    · intro c hc
      exact decide_eq_true (hn c hc)
    · rcases hr with rfl | ⟨c, t, rfl, hc⟩
      · exact .inl rfl
      · exact .inr ⟨c, t, rfl, decide_eq_false (not_not_intro hc)⟩
  simp only []
  rw [ht, List.drop_left]

theorem matchSplitFacts {c : Char} {l a b : Chars}
    (h : (match splitAtFirstChar c l with
          | some (x, y) => (x, y)
          | none => (l, [])) = (a, b)) :
    (∃ t, l = a ++ t) ∧ c ∉ a ∧ (∀ d ∈ b, d ∈ l) := by
  cases hs : splitAtFirstChar c l with
  | none =>
    rw [hs] at h
    injection h with h1 h2
    refine ⟨⟨[], by rw [← h1, List.append_nil]⟩, ?_, ?_⟩
    · rw [← h1]
      exact splitAtFirstChar_eq_none.mp hs
    · intro d hd
      rw [← h2] at hd
      cases hd
  | some pr =>
    obtain ⟨x, y⟩ := pr
    rw [hs] at h
    injection h with h1 h2
    obtain ⟨heq, hnm⟩ := splitAtFirstChar_sound hs
    refine ⟨⟨c :: b, ?_⟩, ?_, ?_⟩
    · rw [← h1, ← h2]
      exact heq
    · rw [← h1]
      exact hnm
    · intro d hd
      rw [heq]
      refine List.mem_append_right _ (List.mem_cons_of_mem _ ?_)
      rw [h2]
      exact hd

/-- Parse of an `urlunsplit`-shaped URL, no-scheme netloc form:
`//<netloc><path>[?query]` splits back into its components. -/
theorem urlsplitC_form_nl {n pst pst2 q Q : Chars}
    (hn : ∀ c ∈ n, ¬(c = '/' ∨ c = '?' ∨ c = '#'))
    (hnb1 : '[' ∉ n) (hnb2 : ']' ∉ n)
    (hpst : pst = '/' :: pst2)
    (hfrag : splitAtFirstChar '#' (pst ++ Q) = none)
    (hquery : splitAtFirstChar '?' (pst ++ Q) = some (pst, q)
      ∨ splitAtFirstChar '?' (pst ++ Q) = none ∧ pst ++ Q = pst ∧ q = [])
    (hpre : urlPreprocess ('/' :: '/' :: ((n ++ pst) ++ Q))
        = '/' :: '/' :: ((n ++ pst) ++ Q)) :
    urlsplitC ('/' :: '/' :: ((n ++ pst) ++ Q)) = .ok ⟨[], n, pst, q, []⟩ := by
  have hshape : pst ++ Q = '/' :: (pst2 ++ Q) := by
    rw [hpst]; rfl
  have hnlc : splitNetlocC ((n ++ pst) ++ Q) = (n, pst ++ Q) := by
    rw [List.append_assoc]
    exact splitNetlocC_append hn (.inr ⟨'/', pst2 ++ Q, hshape, .inl rfl⟩)
  have hbr1 : ¬(('[' ∈ n ∧ ']' ∉ n) ∨ (']' ∈ n ∧ '[' ∉ n)) := by
    rintro (⟨hx, _⟩ | ⟨hx, _⟩)
    · exact hnb1 hx
    · exact hnb2 hx
  have hbr2 : ¬('[' ∈ n ∧ ']' ∈ n) := fun hx => hnb1 hx.1
  have core : ∀ r, urlsplitC ('/' :: '/' :: ((n ++ pst) ++ Q)) = r →
      r = .ok ⟨[], n, pst, q, []⟩ := by
    intro r h
    unfold urlsplitC at h
    simp only [] at h
    rw [hpre] at h
    rw [show splitSchemeC ('/' :: ('/' :: ((n ++ pst) ++ Q)))
        = ([], '/' :: ('/' :: ((n ++ pst) ++ Q)))
      from splitSchemeC_head_not_alpha (by decide)] at h
    simp only [] at h
    rw [hnlc] at h
    simp only [] at h
    rw [if_neg hbr1, if_neg hbr2] at h
    rw [hfrag] at h
    simp only [] at h
    rcases hquery with hq1 | ⟨hq1, hq2, hq3⟩
    · rw [hq1] at h
      simp only [] at h
      exact h.symm
    · rw [hq1] at h
      simp only [] at h
      rw [hq2] at h
      rw [hq3]
      exact h.symm
  exact core _ rfl

/-- Parse of an `urlunsplit`-shaped URL, scheme-and-netloc form:
`<scheme>://<netloc><path>[?query]` splits back into its components. -/
theorem urlsplitC_form_snl {s n pst pst2 q Q : Chars} {c0 : Char} {t0 : Chars}
    (hsc : s = c0 :: t0) (hα : isAsciiAlpha c0 = true)
    (hall : s.all isSchemeChar = true) (hlow : lowerS s = s)
    (hn : ∀ c ∈ n, ¬(c = '/' ∨ c = '?' ∨ c = '#'))
    (hnb1 : '[' ∉ n) (hnb2 : ']' ∉ n)
    (hpst : pst = '/' :: pst2)
    (hfrag : splitAtFirstChar '#' (pst ++ Q) = none)
    (hquery : splitAtFirstChar '?' (pst ++ Q) = some (pst, q)
      ∨ splitAtFirstChar '?' (pst ++ Q) = none ∧ pst ++ Q = pst ∧ q = [])
    (hpre : urlPreprocess (s ++ ':' :: ('/' :: '/' :: ((n ++ pst) ++ Q)))
        = s ++ ':' :: ('/' :: '/' :: ((n ++ pst) ++ Q))) :
    urlsplitC (s ++ ':' :: ('/' :: '/' :: ((n ++ pst) ++ Q)))
      = .ok ⟨s, n, pst, q, []⟩ := by
  have hshape : pst ++ Q = '/' :: (pst2 ++ Q) := by
    rw [hpst]; rfl
  have hnlc : splitNetlocC ((n ++ pst) ++ Q) = (n, pst ++ Q) := by
    rw [List.append_assoc]
    exact splitNetlocC_append hn (.inr ⟨'/', pst2 ++ Q, hshape, .inl rfl⟩)
  have hbr1 : ¬(('[' ∈ n ∧ ']' ∉ n) ∨ (']' ∈ n ∧ '[' ∉ n)) := by
    rintro (⟨hx, _⟩ | ⟨hx, _⟩)
    · exact hnb1 hx
    · exact hnb2 hx
  have hbr2 : ¬('[' ∈ n ∧ ']' ∈ n) := fun hx => hnb1 hx.1
  have hsch : splitSchemeC (s ++ ':' :: ('/' :: '/' :: ((n ++ pst) ++ Q)))
      = (s, '/' :: '/' :: ((n ++ pst) ++ Q)) := by
    rw [splitSchemeC_valid hsc hα hall, hlow]
  have core : ∀ r, urlsplitC (s ++ ':' :: ('/' :: '/' :: ((n ++ pst) ++ Q))) = r →
      r = .ok ⟨s, n, pst, q, []⟩ := by
    intro r h
    unfold urlsplitC at h
    simp only [] at h
    rw [hpre] at h
    rw [hsch] at h
    simp only [] at h
    rw [hnlc] at h
    simp only [] at h
    rw [if_neg hbr1, if_neg hbr2] at h
    rw [hfrag] at h
    simp only [] at h
    rcases hquery with hq1 | ⟨hq1, hq2, hq3⟩
    · rw [hq1] at h
      simp only [] at h
      exact h.symm
    · rw [hq1] at h
      simp only [] at h
      rw [hq2] at h
      rw [hq3]
      exact h.symm
  exact core _ rfl

/-- Parse of an `urlunsplit`-shaped URL, bare form: a relative reference
`<path>[?query]` (no scheme, path not starting `//`) splits back into its
components. -/
theorem urlsplitC_form_plain {p q Q : Chars} {a : Char} {p2 : Chars}
    (hp : p = a :: p2)
    (h2 : p.take 2 ≠ ['/', '/'])
    (hsch : splitSchemeC (p ++ Q) = ([], p ++ Q))
    (hQs : Q = [] ∨ ∃ q2, Q = '?' :: q2)
    (hfrag : splitAtFirstChar '#' (p ++ Q) = none)
    (hquery : splitAtFirstChar '?' (p ++ Q) = some (p, q)
      ∨ splitAtFirstChar '?' (p ++ Q) = none ∧ p ++ Q = p ∧ q = [])
    (hpre : urlPreprocess (p ++ Q) = p ++ Q) :
    urlsplitC (p ++ Q) = .ok ⟨[], [], p, q, []⟩ := by
  have core : ∀ r, urlsplitC (p ++ Q) = r → r = .ok ⟨[], [], p, q, []⟩ := by
    intro r h
    unfold urlsplitC at h
    simp only [] at h
    rw [hpre, hsch] at h
    simp only [] at h
    rw [hp, List.cons_append] at h
    split at h
    · rename_i r2 heq
      injection heq with ha1 heq2
      subst ha1
      cases p2 with
      | nil =>
        simp only [List.nil_append] at heq2
        rcases hQs with rfl | ⟨q2, rfl⟩
        · cases heq2
        · injection heq2 with hx _
          exact absurd hx (by decide)
      | cons b p3 =>
        rw [List.cons_append] at heq2
        injection heq2 with hb _
        subst hb
        exact absurd (by rw [hp]; rfl) h2
    · have hfrag2 : splitAtFirstChar '#' (a :: (p2 ++ Q)) = none := by
        rw [← List.cons_append, ← hp]
        exact hfrag
      rw [hfrag2] at h
      simp only [] at h
      rcases hquery with hq1 | ⟨hq1, hq2, hq3⟩
      · have hq4 : splitAtFirstChar '?' (a :: (p2 ++ Q)) = some (p, q) := by
          rw [← List.cons_append, ← hp]
          exact hq1
        rw [hq4] at h
        simp only [] at h
        exact h.symm
      · have hq4 : splitAtFirstChar '?' (a :: (p2 ++ Q)) = none := by
          rw [← List.cons_append, ← hp]
          exact hq1
        rw [hq4] at h
        simp only [] at h
        rw [← List.cons_append, ← hp, hq2] at h
        rw [hq3]
        exact h.symm
  exact core _ rfl

/-- Parse of an `urlunsplit`-shaped URL, scheme-no-netloc form:
`<scheme>:<path>[?query]` (path not starting `//`) splits back into its
components. -/
theorem urlsplitC_form_sp {s p q Q : Chars} {c0 : Char} {t0 : Chars}
    {a : Char} {p2 : Chars}
    (hsc : s = c0 :: t0) (hα : isAsciiAlpha c0 = true)
    (hall : s.all isSchemeChar = true) (hlow : lowerS s = s)
    (hp : p = a :: p2)
    (h2 : p.take 2 ≠ ['/', '/'])
    (hQs : Q = [] ∨ ∃ q2, Q = '?' :: q2)
    (hfrag : splitAtFirstChar '#' (p ++ Q) = none)
    (hquery : splitAtFirstChar '?' (p ++ Q) = some (p, q)
      ∨ splitAtFirstChar '?' (p ++ Q) = none ∧ p ++ Q = p ∧ q = [])
    (hpre : urlPreprocess (s ++ ':' :: (p ++ Q)) = s ++ ':' :: (p ++ Q)) :
    urlsplitC (s ++ ':' :: (p ++ Q)) = .ok ⟨s, [], p, q, []⟩ := by
  have hsch : splitSchemeC (s ++ ':' :: (p ++ Q)) = (s, p ++ Q) := by
    rw [splitSchemeC_valid hsc hα hall, hlow]
  have core : ∀ r, urlsplitC (s ++ ':' :: (p ++ Q)) = r →
      r = .ok ⟨s, [], p, q, []⟩ := by
    intro r h
    unfold urlsplitC at h
    simp only [] at h
    rw [hpre, hsch] at h
    simp only [] at h
    rw [hp, List.cons_append] at h
    split at h
    · rename_i r2 heq
      injection heq with ha1 heq2
      subst ha1
      cases p2 with
      | nil =>
        simp only [List.nil_append] at heq2
        rcases hQs with rfl | ⟨q2, rfl⟩
        · cases heq2
        · injection heq2 with hx _
          exact absurd hx (by decide)
      | cons b p3 =>
        rw [List.cons_append] at heq2
        injection heq2 with hb _
        subst hb
        exact absurd (by rw [hp]; rfl) h2
    · have hfrag2 : splitAtFirstChar '#' (a :: (p2 ++ Q)) = none := by
        rw [← List.cons_append, ← hp]
        exact hfrag
      rw [hfrag2] at h
      simp only [] at h
      rcases hquery with hq1 | ⟨hq1, hq2, hq3⟩
      · have hq4 : splitAtFirstChar '?' (a :: (p2 ++ Q)) = some (p, q) := by
          rw [← List.cons_append, ← hp]
          exact hq1
        rw [hq4] at h
        simp only [] at h
        exact h.symm
      · have hq4 : splitAtFirstChar '?' (a :: (p2 ++ Q)) = none := by
          rw [← List.cons_append, ← hp]
          exact hq1
        rw [hq4] at h
        simp only [] at h
        rw [← List.cons_append, ← hp, hq2] at h
        rw [hq3]
        exact h.symm
  exact core _ rfl

/-- A path that admits no scheme prefix still admits none after a query is
appended: the first `:` is either the path's own (same pre-colon prefix) or
sits past the `?`, which is not a scheme character. -/
theorem splitSchemeC_plain_fail {p Q : Chars}
    (hQs : Q = [] ∨ ∃ q2, Q = '?' :: q2)
    (hnosch : ∀ pre post, p = pre ++ ':' :: post → ':' ∉ pre →
      ¬(∃ c0 t0, pre = c0 :: t0 ∧ isAsciiAlpha c0 = true
          ∧ pre.all isSchemeChar = true)) :
    splitSchemeC (p ++ Q) = ([], p ++ Q) := by
  apply splitSchemeC_eq_self_of_not_valid
  intro pre post heq hnm hval
  by_cases hcp : ':' ∈ p
  · obtain ⟨pr0, ps0, hsp0⟩ : ∃ pr0 ps0, splitAtFirstChar ':' p = some (pr0, ps0) := by
      cases hx : splitAtFirstChar ':' p with
      | none => exact absurd hcp (splitAtFirstChar_eq_none.mp hx)
      | some pr => obtain ⟨x, y⟩ := pr; exact ⟨x, y, rfl⟩
    obtain ⟨hpeq, hpnm⟩ := splitAtFirstChar_sound hsp0
    have heq2 : p ++ Q = pr0 ++ ':' :: (ps0 ++ Q) := by
      rw [hpeq, List.append_assoc, List.cons_append]
    obtain ⟨hpre_eq, _⟩ := firstChar_split_unique heq hnm heq2 hpnm
    exact hnosch pr0 ps0 hpeq hpnm (hpre_eq ▸ hval)
  · rcases hQs with rfl | ⟨q2, rfl⟩
    · rw [List.append_nil] at heq
      exact hcp (by rw [heq]; exact List.mem_append_right _ (List.mem_cons_self _ _))
    · by_cases hcq : ':' ∈ q2
      · obtain ⟨q1, q3, hq13⟩ : ∃ q1 q3, splitAtFirstChar ':' q2 = some (q1, q3) := by
          cases hx : splitAtFirstChar ':' q2 with
          | none => exact absurd hcq (splitAtFirstChar_eq_none.mp hx)
          | some pr => obtain ⟨x, y⟩ := pr; exact ⟨x, y, rfl⟩
        obtain ⟨hqeq, hqnm⟩ := splitAtFirstChar_sound hq13
        have heq3 : p ++ '?' :: q2 = (p ++ '?' :: q1) ++ ':' :: q3 := by
          rw [hqeq, List.append_assoc, List.cons_append]
        have hnm3 : ':' ∉ p ++ '?' :: q1 := by
          intro hm
          rcases List.mem_append.mp hm with hm1 | hm1
          · exact hcp hm1
          · rcases List.mem_cons.mp hm1 with hm2 | hm2
            · exact absurd hm2 (by decide)
            · exact hqnm hm2
        obtain ⟨hpre_eq, _⟩ := firstChar_split_unique heq hnm heq3 hnm3
        obtain ⟨c0, t0, hct, _, hall⟩ := hval
        have hqmem : '?' ∈ pre := by
          rw [hpre_eq]
          exact List.mem_append_right _ (List.mem_cons_self _ _)
        have := List.all_eq_true.mp hall _ hqmem
        exact absurd this (by decide)
      · have hc2 : ':' ∈ p ++ '?' :: q2 := by
          rw [heq]
          exact List.mem_append_right _ (List.mem_cons_self _ _)
        rcases List.mem_append.mp hc2 with hm | hm
        · exact hcp hm
        · rcases List.mem_cons.mp hm with hm2 | hm2
          · exact absurd hm2 (by decide)
          · exact hcq hm2

theorem fragSplitCase {pp q : Chars} (hpf : '#' ∉ pp) (hqf : '#' ∉ q) :
    splitAtFirstChar '#' (pp ++ (if q ≠ [] then '?' :: q else [])) = none := by
  rw [splitAtFirstChar_eq_none]
  intro hm
  rcases List.mem_append.mp hm with hm1 | hm1
  · exact hpf hm1
  · by_cases hqe : q = []
    · rw [if_neg (fun hh => hh hqe)] at hm1
      cases hm1
    · rw [if_pos hqe] at hm1
      rcases List.mem_cons.mp hm1 with hm2 | hm2
      · exact absurd hm2 (by decide)
      · exact hqf hm2

theorem querySplitCase {pp q : Chars} (hpq : '?' ∉ pp) :
    splitAtFirstChar '?' (pp ++ (if q ≠ [] then '?' :: q else [])) = some (pp, q)
    ∨ splitAtFirstChar '?' (pp ++ (if q ≠ [] then '?' :: q else [])) = none
      ∧ pp ++ (if q ≠ [] then '?' :: q else []) = pp ∧ q = [] := by
  by_cases hqe : q = []
  · right
    subst hqe
    rw [if_neg (fun hh => hh rfl)]
    refine ⟨?_, List.append_nil _, rfl⟩
    rw [List.append_nil, splitAtFirstChar_eq_none]
    exact hpq
  · left
    rw [if_pos hqe]
    exact splitAtFirstChar_append hpq

theorem clean_append {A B : Chars}
    (ha : ∀ c ∈ A, ¬(c = '\t' ∨ c = '\r' ∨ c = '\n'))
    (hb : ∀ c ∈ B, ¬(c = '\t' ∨ c = '\r' ∨ c = '\n')) :
    ∀ c ∈ A ++ B, ¬(c = '\t' ∨ c = '\r' ∨ c = '\n') := by
  intro c hc
  rcases List.mem_append.mp hc with hc | hc
  · exact ha c hc
  · exact hb c hc

theorem clean_cons {a : Char} {B : Chars}
    (haa : ¬(a = '\t' ∨ a = '\r' ∨ a = '\n'))
    (hb : ∀ c ∈ B, ¬(c = '\t' ∨ c = '\r' ∨ c = '\n')) :
    ∀ c ∈ a :: B, ¬(c = '\t' ∨ c = '\r' ∨ c = '\n') := by
  intro c hc
  rcases List.mem_cons.mp hc with rfl | hc
  · exact haa
  · exact hb c hc

theorem clean_qif {q : Chars}
    (hcq : ∀ c ∈ q, ¬(c = '\t' ∨ c = '\r' ∨ c = '\n')) :
    ∀ c ∈ (if q ≠ [] then '?' :: q else []),
      ¬(c = '\t' ∨ c = '\r' ∨ c = '\n') := by
  by_cases hqe : q = []
  · rw [if_neg (fun hh => hh hqe)]
    intro c hc
    cases hc
  · rw [if_pos hqe]
    exact clean_cons (by decide) hcq

/-- `urlunsplit` with empty fragment in the netloc-emitting case. -/
theorem urlunsplitC_shape_cond (s n pp q : Chars)
    (hcond : n ≠ [] ∨ (s ≠ [] ∧ s ∈ uses_netloc ∧ pp.take 2 ≠ ['/', '/'])) :
    urlunsplitC s n pp q []
      = (if s ≠ [] then s ++ ':' :: ('/' :: '/' ::
            (n ++ (if pp ≠ [] ∧ pp.take 1 ≠ ['/'] then '/' :: pp else pp)))
         else '/' :: '/' ::
            (n ++ (if pp ≠ [] ∧ pp.take 1 ≠ ['/'] then '/' :: pp else pp)))
        ++ (if q ≠ [] then '?' :: q else []) := by
  unfold urlunsplitC
  simp only []
  rw [if_pos hcond]
  rw [if_neg (fun hh : ([] : Chars) ≠ [] => hh rfl)]
  by_cases hqe : q = []
  · subst hqe
    rw [if_neg (fun hh : ([] : Chars) ≠ [] => hh rfl),
      if_neg (fun hh : ([] : Chars) ≠ [] => hh rfl), List.append_nil]
  · rw [if_pos hqe, if_pos hqe]

/-- `urlunsplit` with empty fragment in the bare-path case. -/
theorem urlunsplitC_shape_plain (s n pp q : Chars)
    (hcond : ¬(n ≠ [] ∨ (s ≠ [] ∧ s ∈ uses_netloc ∧ pp.take 2 ≠ ['/', '/']))) :
    urlunsplitC s n pp q []
      = (if s ≠ [] then s ++ ':' :: pp else pp)
        ++ (if q ≠ [] then '?' :: q else []) := by
  unfold urlunsplitC
  simp only []
  rw [if_neg hcond]
  rw [if_neg (fun hh : ([] : Chars) ≠ [] => hh rfl)]
  by_cases hqe : q = []
  · subst hqe
    rw [if_neg (fun hh : ([] : Chars) ≠ [] => hh rfl),
      if_neg (fun hh : ([] : Chars) ≠ [] => hh rfl), List.append_nil]
  · rw [if_pos hqe, if_pos hqe]

/-- From a parse of `v` into components that `normalize_url` maps to
themselves, `v` is a fixed point of `normalize_urlC`. -/
theorem normalize_from_parse {v s n2 pst q : Chars}
    (hparse : urlsplitC v = .ok ⟨s, n2, pst, q, []⟩)
    (hsemi : ';' ∉ pst)
    (hrst : (let r := pyRstrip '/' pst; if r = [] then ['/'] else r) = pst)
    (hrebuild : urlunparseC s (lowerS n2) pst [] q [] = v) :
    normalize_urlC v = .ok v := by
  have hparse2 : urlparseC v = .ok ⟨s, n2, pst, [], q, []⟩ := by
    unfold urlparseC
    rw [hparse]
    show (if s ∈ uses_params ∧ ';' ∈ pst then
        (Except.ok ⟨s, n2, (pySplitParams pst).1, (pySplitParams pst).2, q, []⟩
          : Except Unit ParseResultC)
      else .ok ⟨s, n2, pst, [], q, []⟩) = .ok ⟨s, n2, pst, [], q, []⟩
    rw [if_neg (fun hh => hsemi hh.2)]
  unfold normalize_urlC
  rw [hparse2]
  show (Except.ok (urlunparseC s (lowerS n2)
      (let r := pyRstrip '/' pst; if r = [] then ['/'] else r) [] q [])
    : Except Unit Chars) = .ok v
  rw [hrst, hrebuild]

/-- Core of the amended C9: components already in `normalize_url`'s image
(scheme valid and lower-case, netloc lower-case and bracket-free, path
non-empty with no `#?;` and no stripped trailing slash, no `//`-prefixed
path on an empty netloc, no scheme-shaped prefix when scheme and netloc
are absent) make `urlunsplitC s n p q []` a fixed point of
`normalize_urlC`. -/
theorem urlunsplit_normalize_fixed (s n p q : Chars)
    (Hs : s = [] ∨ ∃ c0 t0, s = c0 :: t0 ∧ isAsciiAlpha c0 = true
        ∧ s.all isSchemeChar = true ∧ lowerS s = s)
    (Hn : ∀ c ∈ n, ¬(c = '/' ∨ c = '?' ∨ c = '#'))
    (Hnb1 : '[' ∉ n) (Hnb2 : ']' ∉ n)
    (Hnl : lowerS n = n)
    (Hp0 : p ≠ [])
    (Hpf : '#' ∉ p) (Hpq : '?' ∉ p) (Hps : ';' ∉ p)
    (Hpr : p = ['/'] ∨ pyRstrip '/' p = p)
    (Hpe : n = [] → p.take 2 ≠ ['/', '/'])
    (Hcs : ∀ c ∈ s, ¬(c = '\t' ∨ c = '\r' ∨ c = '\n'))
    (Hcn : ∀ c ∈ n, ¬(c = '\t' ∨ c = '\r' ∨ c = '\n'))
    (Hcp : ∀ c ∈ p, ¬(c = '\t' ∨ c = '\r' ∨ c = '\n'))
    (Hcq : ∀ c ∈ q, ¬(c = '\t' ∨ c = '\r' ∨ c = '\n'))
    (Hhd : s = [] → n = [] → ∀ c, p.head? = some c → 0x20 < c.toNat)
    (Hqf : '#' ∉ q)
    (Hnosch : s = [] → n = [] → ∀ pre post, p = pre ++ ':' :: post → ':' ∉ pre →
      ¬(∃ c0 t0, pre = c0 :: t0 ∧ isAsciiAlpha c0 = true
          ∧ pre.all isSchemeChar = true)) :
    normalize_urlC (urlunsplitC s n p q []) = .ok (urlunsplitC s n p q []) := by
  have hQs : (if q ≠ [] then '?' :: q else []) = []
      ∨ ∃ q2, (if q ≠ [] then '?' :: q else []) = '?' :: q2 := by
    by_cases hqe : q = []
    · left; rw [if_neg (fun hh => hh hqe)]
    · right; exact ⟨q, by rw [if_pos hqe]⟩
  have hQclean := clean_qif Hcq
  obtain ⟨a, p2, hp⟩ : ∃ a p2, p = a :: p2 := by
    cases hp0 : p with
    | nil => exact absurd hp0 Hp0
    | cons x xs => exact ⟨x, xs, rfl⟩
  by_cases hcond : n ≠ [] ∨ (s ≠ [] ∧ s ∈ uses_netloc ∧ p.take 2 ≠ ['/', '/'])
  · -- netloc-emitting case
    obtain ⟨pst, pst2, hu0, hpstC, hpstf, hpstq, hpsts, hpstr, hpst2, hpstcl⟩ :
        ∃ pst pst2,
          (if p ≠ [] ∧ p.take 1 ≠ ['/'] then '/' :: p else p) = pst
          ∧ pst = '/' :: pst2
          ∧ '#' ∉ pst ∧ '?' ∉ pst ∧ ';' ∉ pst
          ∧ (let r := pyRstrip '/' pst; if r = [] then ['/'] else r) = pst
          ∧ (p.take 2 ≠ ['/', '/'] → pst.take 2 ≠ ['/', '/'])
          ∧ (∀ c ∈ pst, ¬(c = '\t' ∨ c = '\r' ∨ c = '\n')) := by
      by_cases ha : a = '/'
      · refine ⟨p, p2, ?_, ?_, Hpf, Hpq, Hps, ?_, fun hx => hx, Hcp⟩
        · apply if_neg
          rintro ⟨_, h1t⟩
          apply h1t
          rw [hp, ha]
          rfl
        · rw [hp, ha]
        · rcases Hpr with hpe1 | hpe2
          · rw [hpe1]; decide
          · simp only []
            rw [hpe2, if_neg Hp0]
      · refine ⟨'/' :: p, p, ?_, rfl, ?_, ?_, ?_, ?_, ?_, ?_⟩
        · apply if_pos
          refine ⟨Hp0, ?_⟩
          rw [hp]
          intro hx
          have hx2 : [a] = ['/'] := hx
          injection hx2 with hx1 _
          exact ha hx1
        · exact fun hm => (by
            rcases List.mem_cons.mp hm with hm1 | hm1
            · exact absurd hm1 (by decide)
            · exact Hpf hm1)
        · exact fun hm => (by
            rcases List.mem_cons.mp hm with hm1 | hm1
            · exact absurd hm1 (by decide)
            · exact Hpq hm1)
        · exact fun hm => (by
            rcases List.mem_cons.mp hm with hm1 | hm1
            · exact absurd hm1 (by decide)
            · exact Hps hm1)
        · have hpne : p ≠ ['/'] := by
            rw [hp]
            intro hx
            injection hx with hx1 _
            exact ha hx1
          have hpr2 : pyRstrip '/' p = p := by
            rcases Hpr with h1 | h1
            · exact absurd h1 hpne
            · exact h1
          have hgl : p.getLast? ≠ some '/' := by
            have h9 := pyRstrip_getLast_ne
              (show pyRstrip '/' p ≠ [] by rw [hpr2]; exact Hp0)
            rw [hpr2] at h9
            exact h9
          have hgl2 : ('/' :: p).getLast? ≠ some '/' := by
            rw [hp, List.getLast?_cons_cons, ← hp]
            exact hgl
          simp only []
          rw [pyRstrip_eq_self_of_getLast hgl2]
          rw [if_neg (by intro hx; cases hx)]
        · intro _ hx
          rw [hp] at hx
          have hx2 : ['/', a] = ['/', '/'] := hx
          injection hx2 with _ hx3
          injection hx3 with hx4 _
          exact ha hx4
        · exact clean_cons (by decide) Hcp
    have hfrag := fragSplitCase hpstf Hqf
    have hquery := @querySplitCase pst q hpstq
    have hcond2 : n ≠ [] ∨ (s ≠ [] ∧ s ∈ uses_netloc ∧ pst.take 2 ≠ ['/', '/']) := by
      rcases hcond with h1 | ⟨h1, h2, h3⟩
      · exact .inl h1
      · exact .inr ⟨h1, h2, hpst2 h3⟩
    have hv := urlunsplitC_shape_cond s n p q hcond
    rw [hu0] at hv
    have hrb := urlunsplitC_shape_cond s n pst q hcond2
    have hu02 : (if pst ≠ [] ∧ pst.take 1 ≠ ['/'] then '/' :: pst else pst) = pst := by
      apply if_neg
      rintro ⟨_, hx⟩
      apply hx
      rw [hpstC]
      rfl
    rw [hu02] at hrb
    rcases Hs with hs0 | ⟨c0, t0, hsc, hα, hall, hlow⟩
    · subst hs0
      rw [if_neg (fun hh => hh rfl)] at hv hrb
      have hsh : ('/' :: '/' :: (n ++ pst)) ++ (if q ≠ [] then '?' :: q else [])
          = '/' :: '/' :: ((n ++ pst) ++ (if q ≠ [] then '?' :: q else [])) := rfl
      rw [hsh] at hv hrb
      have hpre : urlPreprocess
          ('/' :: '/' :: ((n ++ pst) ++ (if q ≠ [] then '?' :: q else [])))
          = '/' :: '/' :: ((n ++ pst) ++ (if q ≠ [] then '?' :: q else [])) := by
        apply urlPreprocess_eq_self
        · intro c hc
          have hc2 : some '/' = some c := hc
          injection hc2 with hc3
          rw [← hc3]
          decide
        · exact clean_cons (by decide) (clean_cons (by decide)
            (clean_append (clean_append Hcn hpstcl) hQclean))
      have hparse := urlsplitC_form_nl Hn Hnb1 Hnb2 hpstC hfrag hquery hpre
      rw [hv]
      have hrebuild : urlunparseC [] (lowerS n) pst [] q []
          = '/' :: '/' :: ((n ++ pst) ++ (if q ≠ [] then '?' :: q else [])) := by
        unfold urlunparseC
        rw [if_neg (fun hh : ([] : Chars) ≠ [] => hh rfl)]
        rw [Hnl]
        exact hrb
      exact normalize_from_parse hparse hpsts hpstr hrebuild
    · have hsne : s ≠ [] := by
        rw [hsc]
        intro hx
        cases hx
      rw [if_pos hsne] at hv hrb
      have hsh : (s ++ ':' :: ('/' :: '/' :: (n ++ pst)))
            ++ (if q ≠ [] then '?' :: q else [])
          = s ++ ':' :: ('/' :: '/' ::
            ((n ++ pst) ++ (if q ≠ [] then '?' :: q else []))) := by
        simp only [List.append_assoc, List.cons_append]
      rw [hsh] at hv hrb
      have hpre : urlPreprocess (s ++ ':' :: ('/' :: '/' ::
            ((n ++ pst) ++ (if q ≠ [] then '?' :: q else []))))
          = s ++ ':' :: ('/' :: '/' ::
            ((n ++ pst) ++ (if q ≠ [] then '?' :: q else []))) := by
        apply urlPreprocess_eq_self
        · intro c hc
          rw [hsc, List.cons_append] at hc
          have hc2 : some c0 = some c := hc
          injection hc2 with hc3
          rw [← hc3]
          unfold isAsciiAlpha at hα
          have := of_decide_eq_true hα
          omega
        · exact clean_append Hcs (clean_cons (by decide) (clean_cons (by decide)
            (clean_cons (by decide)
              (clean_append (clean_append Hcn hpstcl) hQclean))))
      have hparse := urlsplitC_form_snl hsc hα hall hlow Hn Hnb1 Hnb2 hpstC
        hfrag hquery hpre
      rw [hv]
      have hrebuild : urlunparseC s (lowerS n) pst [] q []
          = s ++ ':' :: ('/' :: '/' ::
            ((n ++ pst) ++ (if q ≠ [] then '?' :: q else []))) := by
        unfold urlunparseC
        rw [if_neg (fun hh : ([] : Chars) ≠ [] => hh rfl)]
        rw [Hnl]
        exact hrb
      exact normalize_from_parse hparse hpsts hpstr hrebuild
  · -- bare-path case
    have hn0 : n = [] := by
      by_contra hx
      exact hcond (.inl hx)
    subst hn0
    have hpt2 : p.take 2 ≠ ['/', '/'] := Hpe rfl
    have hv := urlunsplitC_shape_plain s [] p q hcond
    have hrst : (let r := pyRstrip '/' p; if r = [] then ['/'] else r) = p := by
      rcases Hpr with h1 | h1
      · rw [h1]; decide
      · simp only []
        rw [h1, if_neg Hp0]
    have hfrag := fragSplitCase Hpf Hqf
    have hquery := @querySplitCase p q Hpq
    rcases Hs with hs0 | ⟨c0, t0, hsc, hα, hall, hlow⟩
    · subst hs0
      rw [if_neg (fun hh => hh rfl)] at hv
      have hsch : splitSchemeC (p ++ (if q ≠ [] then '?' :: q else []))
          = ([], p ++ (if q ≠ [] then '?' :: q else [])) :=
        splitSchemeC_plain_fail hQs (Hnosch rfl rfl)
      have hpre : urlPreprocess (p ++ (if q ≠ [] then '?' :: q else []))
          = p ++ (if q ≠ [] then '?' :: q else []) := by
        apply urlPreprocess_eq_self
        · intro c hc
          rw [hp, List.cons_append] at hc
          have hc2 : some a = some c := hc
          injection hc2 with hc3
          rw [← hc3]
          exact Hhd rfl rfl a (by rw [hp]; rfl)
        · exact clean_append Hcp hQclean
      have hparse := urlsplitC_form_plain hp hpt2 hsch hQs hfrag hquery hpre
      rw [hv]
      have hrebuild : urlunparseC [] (lowerS []) p [] q []
          = p ++ (if q ≠ [] then '?' :: q else []) := by
        unfold urlunparseC
        rw [if_neg (fun hh : ([] : Chars) ≠ [] => hh rfl)]
        rw [show lowerS ([] : Chars) = [] from rfl]
        exact hv
      exact normalize_from_parse hparse Hps hrst hrebuild
    · have hsne : s ≠ [] := by
        rw [hsc]
        intro hx
        cases hx
      rw [if_pos hsne] at hv
      have hsh : (s ++ ':' :: p) ++ (if q ≠ [] then '?' :: q else [])
          = s ++ ':' :: (p ++ (if q ≠ [] then '?' :: q else [])) := by
        simp only [List.append_assoc, List.cons_append]
      rw [hsh] at hv
      have hpre : urlPreprocess (s ++ ':' ::
            (p ++ (if q ≠ [] then '?' :: q else [])))
          = s ++ ':' :: (p ++ (if q ≠ [] then '?' :: q else [])) := by
        apply urlPreprocess_eq_self
        · intro c hc
          rw [hsc, List.cons_append] at hc
          have hc2 : some c0 = some c := hc
          injection hc2 with hc3
          rw [← hc3]
          unfold isAsciiAlpha at hα
          have := of_decide_eq_true hα
          omega
        · exact clean_append Hcs (clean_cons (by decide)
            (clean_append Hcp hQclean))
      have hparse := urlsplitC_form_sp hsc hα hall hlow hp hpt2 hQs hfrag
        hquery hpre
      rw [hv]
      have hrebuild : urlunparseC s (lowerS []) p [] q []
          = s ++ ':' :: (p ++ (if q ≠ [] then '?' :: q else [])) := by
        unfold urlunparseC
        rw [if_neg (fun hh : ([] : Chars) ≠ [] => hh rfl)]
        rw [show lowerS ([] : Chars) = [] from rfl]
        exact hv
      exact normalize_from_parse hparse Hps hrst hrebuild

/-- The scheme a `splitSchemeC` returns is empty or valid and lower-case. -/
theorem splitSchemeC_scheme_facts {l sch rest : Chars}
    (h : splitSchemeC l = (sch, rest)) :
    sch = [] ∨ ∃ c0 t0, sch = c0 :: t0 ∧ isAsciiAlpha c0 = true
      ∧ sch.all isSchemeChar = true ∧ lowerS sch = sch := by
  by_cases hne : sch = []
  · exact .inl hne
  · right
    obtain ⟨pre, _, _, hlow, c0, t0, hpre, hα, hall⟩ := splitSchemeC_inv h hne
    subst hpre
    refine ⟨asciiLower c0, lowerS t0, ?_, ?_, ?_, ?_⟩
    · rw [hlow]; rfl
    · rw [isAsciiAlpha_asciiLower]; exact hα
    · rw [hlow, List.all_eq_true]
      intro x hx
      obtain ⟨d, hd, rfl⟩ := List.mem_map.mp hx
      exact isSchemeChar_asciiLower (List.all_eq_true.mp hall d hd)
    · rw [hlow, lowerS_idem]

theorem splitSchemeC_scheme_clean {l sch rest : Chars}
    (h : splitSchemeC l = (sch, rest))
    (hl : ∀ c ∈ l, ¬(c = '\t' ∨ c = '\r' ∨ c = '\n')) :
    ∀ c ∈ sch, ¬(c = '\t' ∨ c = '\r' ∨ c = '\n') := by
  by_cases hne : sch = []
  · subst hne
    intro c hc
    cases hc
  · obtain ⟨pre, heq, _, hlow, _⟩ := splitSchemeC_inv h hne
    intro c hc
    rw [hlow] at hc
    obtain ⟨d, hd, rfl⟩ := List.mem_map.mp hc
    have hdl : d ∈ l := by
      rw [heq]
      exact List.mem_append_left _ hd
    have hdcl := hl d hdl
    rintro (hx | hx | hx) <;> exact hdcl (by
      rw [← asciiLower_eq_of_not_lower (by decide) hx]
      simp)

theorem splitSchemeC_rest_sub {l sch rest : Chars}
    (h : splitSchemeC l = (sch, rest)) : ∀ c ∈ rest, c ∈ l := by
  by_cases hne : sch = []
  · obtain ⟨hrl, _⟩ := splitSchemeC_empty h hne
    intro c hc
    rw [hrl] at hc
    exact hc
  · obtain ⟨pre, heq, _⟩ := splitSchemeC_inv h hne
    intro c hc
    rw [heq]
    exact List.mem_append_right _ (List.mem_cons_of_mem _ hc)

/-- Facts about the path/query produced by `urlsplit`'s fragment and query
splits on `rest2`. -/
theorem fragQueryFacts {rest2 rest3 frag pa qu : Chars}
    (case1 : splitAtFirstChar '#' rest2 = some (rest3, frag)
      ∨ splitAtFirstChar '#' rest2 = none ∧ rest3 = rest2 ∧ frag = [])
    (case2 : splitAtFirstChar '?' rest3 = some (pa, qu)
      ∨ splitAtFirstChar '?' rest3 = none ∧ pa = rest3 ∧ qu = []) :
    (∃ T, rest2 = pa ++ T) ∧ '#' ∉ pa ∧ '?' ∉ pa
      ∧ (∀ d ∈ qu, d ∈ rest2) ∧ '#' ∉ qu := by
  have h3 : (∃ T1, rest2 = rest3 ++ T1) ∧ '#' ∉ rest3 := by
    rcases case1 with h | ⟨h, hr, _⟩
    · obtain ⟨heq, hnm⟩ := splitAtFirstChar_sound h
      exact ⟨⟨'#' :: frag, heq⟩, hnm⟩
    · subst hr
      exact ⟨⟨[], by rw [List.append_nil]⟩, splitAtFirstChar_eq_none.mp h⟩
  obtain ⟨⟨T1, hT1⟩, hf3⟩ := h3
  have h4 : (∃ T2, rest3 = pa ++ T2) ∧ '?' ∉ pa ∧ (∀ d ∈ qu, d ∈ rest3) := by
    rcases case2 with h | ⟨h, hr, hq⟩
    · obtain ⟨heq, hnm⟩ := splitAtFirstChar_sound h
      refine ⟨⟨'?' :: qu, heq⟩, hnm, ?_⟩
      intro d hd
      rw [heq]
      exact List.mem_append_right _ (List.mem_cons_of_mem _ hd)
    · subst hr
      subst hq
      exact ⟨⟨[], by rw [List.append_nil]⟩, splitAtFirstChar_eq_none.mp h,
        fun d hd => by cases hd⟩
  obtain ⟨⟨T2, hT2⟩, hq3, hqm⟩ := h4
  refine ⟨⟨T2 ++ T1, by rw [hT1, hT2, List.append_assoc]⟩, ?_, hq3, ?_, ?_⟩
  · intro hm
    exact hf3 (by rw [hT2]; exact List.mem_append_left _ hm)
  · intro d hd
    rw [hT1]
    exact List.mem_append_left _ (hqm d hd)
  · intro hm
    exact hf3 (hqm _ hm)

/-- Component facts in the netloc branch of `urlsplitC`. -/
theorem urlsplitC_netloc_tail_facts {url1 sch rest r2 nl rest2 rest3 frag
    pa qu : Chars}
    (hsc : splitSchemeC url1 = (sch, rest))
    (heq : rest = '/' :: '/' :: r2)
    (hnn : splitNetlocC r2 = (nl, rest2))
    (case1 : splitAtFirstChar '#' rest2 = some (rest3, frag)
      ∨ splitAtFirstChar '#' rest2 = none ∧ rest3 = rest2 ∧ frag = [])
    (case2 : splitAtFirstChar '?' rest3 = some (pa, qu)
      ∨ splitAtFirstChar '?' rest3 = none ∧ pa = rest3 ∧ qu = []) :
    (∀ c ∈ nl, ¬(c = '/' ∨ c = '?' ∨ c = '#'))
    ∧ (∀ c ∈ nl, c ∈ url1)
    ∧ ('#' ∉ pa ∧ '?' ∉ pa)
    ∧ (∀ c ∈ pa, c ∈ url1)
    ∧ ('#' ∉ qu)
    ∧ (∀ c ∈ qu, c ∈ url1)
    ∧ (pa = [] ∨ pa.head? = some '/')
    ∧ (∀ c, pa.head? = some c → 0x20 < c.toNat)
    ∧ (∀ pre post, pa = pre ++ ':' :: post → ':' ∉ pre →
        ¬(∃ c0 t0, pre = c0 :: t0 ∧ isAsciiAlpha c0 = true
            ∧ pre.all isSchemeChar = true)) := by
  have hRS := splitSchemeC_rest_sub hsc
  have hr2sub : ∀ c ∈ r2, c ∈ url1 := by
    intro c hc
    exact hRS c (by rw [heq]; exact List.mem_cons_of_mem _ (List.mem_cons_of_mem _ hc))
  obtain ⟨hnlm, hr2eq, hr2hd⟩ := splitNetlocC_facts hnn
  have hrest2sub : ∀ c ∈ rest2, c ∈ url1 := by
    intro c hc
    exact hr2sub c (by rw [hr2eq]; exact List.mem_append_right _ hc)
  obtain ⟨⟨T, hT⟩, hpaf, hpaq, hqum, hquf⟩ := fragQueryFacts case1 case2
  have hhead : pa = [] ∨ pa.head? = some '/' := by
    cases hpa : pa with
    | nil => exact .inl rfl
    | cons x pa2 =>
      right
      rw [hT, hpa] at hr2hd
      rcases hr2hd with hcontra | ⟨d, td, hdd, hdel⟩
      · rw [List.cons_append] at hcontra
        cases hcontra
      · rw [List.cons_append] at hdd
        injection hdd with h1 _
        rcases hdel with hd1 | hd1 | hd1
        · rw [show x = '/' from h1.trans hd1]
          rfl
        · exact absurd (show '?' ∈ pa by
            rw [hpa, h1.trans hd1]; exact List.mem_cons_self _ _) hpaq
        · exact absurd (show '#' ∈ pa by
            rw [hpa, h1.trans hd1]; exact List.mem_cons_self _ _) hpaf
  refine ⟨fun c hc => (hnlm c hc).1,
    fun c hc => hr2sub c ((hnlm c hc).2),
    ⟨hpaf, hpaq⟩,
    fun c hc => hrest2sub c (by rw [hT]; exact List.mem_append_left _ hc),
    hquf,
    fun c hc => hrest2sub c (hqum c hc),
    hhead, ?_, ?_⟩
  · intro c hc
    rcases hhead with hx | hx
    · rw [hx] at hc
      cases hc
    · rw [hx] at hc
      injection hc with hc2
      rw [← hc2]
      decide
  · intro pre post hdec hnm hval
    obtain ⟨c0, t0, hct, hα, hall⟩ := hval
    rcases hhead with hx | hx
    · rw [hx, hct] at hdec
      cases hdec
    · have hx2 : pa.head? = some c0 := by
        rw [hdec, hct]
        rfl
      rw [hx] at hx2
      injection hx2 with hx3
      have hslash : isSchemeChar c0 = true :=
        List.all_eq_true.mp hall _ (by rw [hct]; exact List.mem_cons_self _ _)
      rw [← hx3] at hslash
      exact absurd hslash (by decide)

/-- Component facts in the no-netloc branch of `urlsplitC`. -/
theorem urlsplitC_plain_tail_facts {url1 sch rest rest3 frag pa qu : Chars}
    (hsc : splitSchemeC url1 = (sch, rest))
    (hhd1 : ∀ c, url1.head? = some c → 0x20 < c.toNat)
    (case1 : splitAtFirstChar '#' rest = some (rest3, frag)
      ∨ splitAtFirstChar '#' rest = none ∧ rest3 = rest ∧ frag = [])
    (case2 : splitAtFirstChar '?' rest3 = some (pa, qu)
      ∨ splitAtFirstChar '?' rest3 = none ∧ pa = rest3 ∧ qu = []) :
    ('#' ∉ pa ∧ '?' ∉ pa)
    ∧ (∀ c ∈ pa, c ∈ url1)
    ∧ ('#' ∉ qu)
    ∧ (∀ c ∈ qu, c ∈ url1)
    ∧ (sch = [] → ∀ c, pa.head? = some c → 0x20 < c.toNat)
    ∧ (sch = [] → ∀ pre post, pa = pre ++ ':' :: post → ':' ∉ pre →
        ¬(∃ c0 t0, pre = c0 :: t0 ∧ isAsciiAlpha c0 = true
            ∧ pre.all isSchemeChar = true)) := by
  have hRS := splitSchemeC_rest_sub hsc
  obtain ⟨⟨T, hT⟩, hpaf, hpaq, hqum, hquf⟩ := fragQueryFacts case1 case2
  refine ⟨⟨hpaf, hpaq⟩,
    fun c hc => hRS c (by rw [hT]; exact List.mem_append_left _ hc),
    hquf,
    fun c hc => hRS c (hqum c hc), ?_, ?_⟩
  · intro hsch c hc
    obtain ⟨hrl, _⟩ := splitSchemeC_empty hsc hsch
    apply hhd1 c
    rw [← hrl, hT]
    cases hpa : pa with
    | nil =>
      rw [hpa] at hc
      cases hc
    | cons x pa2 =>
      rw [hpa] at hc
      injection hc with hc2
      rw [List.cons_append]
      rw [← hc2]
      rfl
  · intro hsch pre post hdec hnm hval
    obtain ⟨hrl, hprop⟩ := splitSchemeC_empty hsc hsch
    have hdec2 : url1 = pre ++ ':' :: (post ++ T) := by
      rw [← hrl, hT, hdec, List.append_assoc, List.cons_append]
    exact hprop pre (post ++ T) hdec2 hnm hval

/-- Structural invariants of every successful `urlsplitC` parse, used to
establish idempotence of `normalize_url`. -/
theorem urlsplitC_facts {url0 : Chars} {sp : SplitResultC}
    (h : urlsplitC url0 = .ok sp) :
    (sp.scheme = [] ∨ ∃ c0 t0, sp.scheme = c0 :: t0 ∧ isAsciiAlpha c0 = true
        ∧ sp.scheme.all isSchemeChar = true ∧ lowerS sp.scheme = sp.scheme)
    ∧ (∀ c ∈ sp.netloc, ¬(c = '/' ∨ c = '?' ∨ c = '#'))
    ∧ (∀ c ∈ sp.netloc, c ∈ urlPreprocess url0)
    ∧ ('#' ∉ sp.path ∧ '?' ∉ sp.path)
    ∧ (∀ c ∈ sp.path, c ∈ urlPreprocess url0)
    ∧ ('#' ∉ sp.query)
    ∧ (∀ c ∈ sp.query, c ∈ urlPreprocess url0)
    ∧ (∀ c ∈ sp.scheme, ¬(c = '\t' ∨ c = '\r' ∨ c = '\n'))
    ∧ (sp.netloc ≠ [] → sp.path = [] ∨ sp.path.head? = some '/')
    ∧ (sp.scheme = [] → sp.netloc = [] →
        ∀ c, sp.path.head? = some c → 0x20 < c.toNat)
    ∧ (sp.scheme = [] → sp.netloc = [] → ∀ pre post,
        sp.path = pre ++ ':' :: post → ':' ∉ pre →
        ¬(∃ c0 t0, pre = c0 :: t0 ∧ isAsciiAlpha c0 = true
            ∧ pre.all isSchemeChar = true)) := by
  obtain ⟨s1, n1, p1, q1, f1⟩ := sp
  unfold urlsplitC at h
  simp only [] at h
  cases hsc : splitSchemeC (urlPreprocess url0) with
  | mk sch rest =>
  rw [hsc] at h
  simp only [] at h
  have hSF := splitSchemeC_scheme_facts hsc
  have hSC := splitSchemeC_scheme_clean hsc
    (fun c hc => urlPreprocess_unsafe_free hc)
  have hhd1 : ∀ c, (urlPreprocess url0).head? = some c → 0x20 < c.toNat :=
    fun c hc => urlPreprocess_head hc
  split at h
  · rename_i r2
    have heq : (sch, '/' :: '/' :: r2) = (sch, '/' :: '/' :: r2) := rfl
    cases hnn : splitNetlocC r2 with
    | mk nl rest2 =>
    rw [hnn] at h
    simp only [] at h
    split at h
    · cases h
    · split at h
      · split at h
        · cases h
        · cases hm1 : splitAtFirstChar '#' rest2 with
          | none =>
            rw [hm1] at h
            simp only [] at h
            cases hm2 : splitAtFirstChar '?' rest2 with
            | none =>
              rw [hm2] at h
              simp only [] at h
              injection h with h2
              injection h2 with e1 e2 e3 e4 e5
              subst e1; subst e2; subst e3; subst e4; subst e5
              obtain ⟨F1, F2, F3, F4, F5, F6, F7, F8, F9⟩ :=
                urlsplitC_netloc_tail_facts hsc rfl hnn
                  (.inr ⟨hm1, rfl, rfl⟩) (.inr ⟨hm2, rfl, rfl⟩)
              exact ⟨hSF, F1, F2, F3, F4, F5, F6, hSC, fun _ => F7,
                fun _ _ => F8, fun _ _ => F9⟩
            | some pr2 =>
              obtain ⟨pa, qu⟩ := pr2
              rw [hm2] at h
              simp only [] at h
              injection h with h2
              injection h2 with e1 e2 e3 e4 e5
              subst e1; subst e2; subst e3; subst e4; subst e5
              obtain ⟨F1, F2, F3, F4, F5, F6, F7, F8, F9⟩ :=
                urlsplitC_netloc_tail_facts hsc rfl hnn
                  (.inr ⟨hm1, rfl, rfl⟩) (.inl hm2)
              exact ⟨hSF, F1, F2, F3, F4, F5, F6, hSC, fun _ => F7,
                fun _ _ => F8, fun _ _ => F9⟩
          | some pr =>
            obtain ⟨r3, fr⟩ := pr
            rw [hm1] at h
            simp only [] at h
            cases hm2 : splitAtFirstChar '?' r3 with
            | none =>
              rw [hm2] at h
              simp only [] at h
              injection h with h2
              injection h2 with e1 e2 e3 e4 e5
              subst e1; subst e2; subst e3; subst e4; subst e5
              obtain ⟨F1, F2, F3, F4, F5, F6, F7, F8, F9⟩ :=
                urlsplitC_netloc_tail_facts hsc rfl hnn
                  (.inl hm1) (.inr ⟨hm2, rfl, rfl⟩)
              exact ⟨hSF, F1, F2, F3, F4, F5, F6, hSC, fun _ => F7,
                fun _ _ => F8, fun _ _ => F9⟩
            | some pr2 =>
              obtain ⟨pa, qu⟩ := pr2
              rw [hm2] at h
              simp only [] at h
              injection h with h2
              injection h2 with e1 e2 e3 e4 e5
              subst e1; subst e2; subst e3; subst e4; subst e5
              obtain ⟨F1, F2, F3, F4, F5, F6, F7, F8, F9⟩ :=
                urlsplitC_netloc_tail_facts hsc rfl hnn
                  (.inl hm1) (.inl hm2)
              exact ⟨hSF, F1, F2, F3, F4, F5, F6, hSC, fun _ => F7,
                fun _ _ => F8, fun _ _ => F9⟩
      · cases hm1 : splitAtFirstChar '#' rest2 with
        | none =>
          rw [hm1] at h
          simp only [] at h
          cases hm2 : splitAtFirstChar '?' rest2 with
          | none =>
            rw [hm2] at h
            simp only [] at h
            injection h with h2
            injection h2 with e1 e2 e3 e4 e5
            subst e1; subst e2; subst e3; subst e4; subst e5
            obtain ⟨F1, F2, F3, F4, F5, F6, F7, F8, F9⟩ :=
              urlsplitC_netloc_tail_facts hsc rfl hnn
                (.inr ⟨hm1, rfl, rfl⟩) (.inr ⟨hm2, rfl, rfl⟩)
            exact ⟨hSF, F1, F2, F3, F4, F5, F6, hSC, fun _ => F7,
              fun _ _ => F8, fun _ _ => F9⟩
          | some pr2 =>
            obtain ⟨pa, qu⟩ := pr2
            rw [hm2] at h
            simp only [] at h
            injection h with h2
            injection h2 with e1 e2 e3 e4 e5
            subst e1; subst e2; subst e3; subst e4; subst e5
            obtain ⟨F1, F2, F3, F4, F5, F6, F7, F8, F9⟩ :=
              urlsplitC_netloc_tail_facts hsc rfl hnn
                (.inr ⟨hm1, rfl, rfl⟩) (.inl hm2)
            exact ⟨hSF, F1, F2, F3, F4, F5, F6, hSC, fun _ => F7,
              fun _ _ => F8, fun _ _ => F9⟩
        | some pr =>
          obtain ⟨r3, fr⟩ := pr
          rw [hm1] at h
          simp only [] at h
          cases hm2 : splitAtFirstChar '?' r3 with
          | none =>
            rw [hm2] at h
            simp only [] at h
            injection h with h2
            injection h2 with e1 e2 e3 e4 e5
            subst e1; subst e2; subst e3; subst e4; subst e5
            obtain ⟨F1, F2, F3, F4, F5, F6, F7, F8, F9⟩ :=
              urlsplitC_netloc_tail_facts hsc rfl hnn
                (.inl hm1) (.inr ⟨hm2, rfl, rfl⟩)
            exact ⟨hSF, F1, F2, F3, F4, F5, F6, hSC, fun _ => F7,
              fun _ _ => F8, fun _ _ => F9⟩
          | some pr2 =>
            obtain ⟨pa, qu⟩ := pr2
            rw [hm2] at h
            simp only [] at h
            injection h with h2
            injection h2 with e1 e2 e3 e4 e5
            subst e1; subst e2; subst e3; subst e4; subst e5
            obtain ⟨F1, F2, F3, F4, F5, F6, F7, F8, F9⟩ :=
              urlsplitC_netloc_tail_facts hsc rfl hnn
                (.inl hm1) (.inl hm2)
            exact ⟨hSF, F1, F2, F3, F4, F5, F6, hSC, fun _ => F7,
              fun _ _ => F8, fun _ _ => F9⟩
  · cases hm1 : splitAtFirstChar '#' rest with
    | none =>
      rw [hm1] at h
      simp only [] at h
      cases hm2 : splitAtFirstChar '?' rest with
      | none =>
        rw [hm2] at h
        simp only [] at h
        injection h with h2
        injection h2 with e1 e2 e3 e4 e5
        subst e1; subst e2; subst e3; subst e4; subst e5
        obtain ⟨G1, G2, G3, G4, G5, G6⟩ :=
          urlsplitC_plain_tail_facts hsc hhd1
            (.inr ⟨hm1, rfl, rfl⟩) (.inr ⟨hm2, rfl, rfl⟩)
        exact ⟨hSF, fun c hc => absurd hc (List.not_mem_nil c),
          fun c hc => absurd hc (List.not_mem_nil c), G1, G2, G3, G4, hSC,
          fun hx => absurd rfl hx, fun hs _ => G5 hs, fun hs _ => G6 hs⟩
      | some pr2 =>
        obtain ⟨pa, qu⟩ := pr2
        rw [hm2] at h
        simp only [] at h
        injection h with h2
        injection h2 with e1 e2 e3 e4 e5
        subst e1; subst e2; subst e3; subst e4; subst e5
        obtain ⟨G1, G2, G3, G4, G5, G6⟩ :=
          urlsplitC_plain_tail_facts hsc hhd1
            (.inr ⟨hm1, rfl, rfl⟩) (.inl hm2)
        exact ⟨hSF, fun c hc => absurd hc (List.not_mem_nil c),
          fun c hc => absurd hc (List.not_mem_nil c), G1, G2, G3, G4, hSC,
          fun hx => absurd rfl hx, fun hs _ => G5 hs, fun hs _ => G6 hs⟩
    | some pr =>
      obtain ⟨r3, fr⟩ := pr
      rw [hm1] at h
      simp only [] at h
      cases hm2 : splitAtFirstChar '?' r3 with
      | none =>
        rw [hm2] at h
        simp only [] at h
        injection h with h2
        injection h2 with e1 e2 e3 e4 e5
        subst e1; subst e2; subst e3; subst e4; subst e5
        obtain ⟨G1, G2, G3, G4, G5, G6⟩ :=
          urlsplitC_plain_tail_facts hsc hhd1
            (.inl hm1) (.inr ⟨hm2, rfl, rfl⟩)
        exact ⟨hSF, fun c hc => absurd hc (List.not_mem_nil c),
          fun c hc => absurd hc (List.not_mem_nil c), G1, G2, G3, G4, hSC,
          fun hx => absurd rfl hx, fun hs _ => G5 hs, fun hs _ => G6 hs⟩
      | some pr2 =>
        obtain ⟨pa, qu⟩ := pr2
        rw [hm2] at h
        simp only [] at h
        injection h with h2
        injection h2 with e1 e2 e3 e4 e5
        subst e1; subst e2; subst e3; subst e4; subst e5
        obtain ⟨G1, G2, G3, G4, G5, G6⟩ :=
          urlsplitC_plain_tail_facts hsc hhd1
            (.inl hm1) (.inl hm2)
        exact ⟨hSF, fun c hc => absurd hc (List.not_mem_nil c),
          fun c hc => absurd hc (List.not_mem_nil c), G1, G2, G3, G4, hSC,
          fun hx => absurd rfl hx, fun hs _ => G5 hs, fun hs _ => G6 hs⟩

/-- C9 (amended): `normalize_url` is idempotent on every URL that is
bracket-free, whose raw path carries no `;` (no path parameters), and that
does not pair an empty netloc with a path starting `//`.  The three
exclusions are exactly the shapes the counterexamples exploit
(`_splitparams` moving a `;` across a stripped slash, and `urlunsplit`
re-rooting a `//`-path). -/
theorem normalize_url_idempotent_amended (u v : String) (sp : SplitResultC)
    (hsp : urlsplitC u.data = .ok sp)
    (hsemi : ';' ∉ sp.path)
    (hbr1 : '[' ∉ u.data) (hbr2 : ']' ∉ u.data)
    (hss : ¬(sp.netloc = [] ∧ sp.path.take 2 = ['/', '/']))
    (h : normalize_url u = .ok v) :
    normalize_url v = .ok v := by
  obtain ⟨F1, F2, F3, F4, F5, F6, F7, F8, F9, F10, F11⟩ := urlsplitC_facts hsp
  have hparse2 : urlparseC u.data
      = .ok ⟨sp.scheme, sp.netloc, sp.path, [], sp.query, sp.fragment⟩ := by
    unfold urlparseC
    rw [hsp]
    show (if sp.scheme ∈ uses_params ∧ ';' ∈ sp.path then
        (Except.ok ⟨sp.scheme, sp.netloc, (pySplitParams sp.path).1,
          (pySplitParams sp.path).2, sp.query, sp.fragment⟩
          : Except Unit ParseResultC)
      else .ok ⟨sp.scheme, sp.netloc, sp.path, [], sp.query, sp.fragment⟩)
      = .ok ⟨sp.scheme, sp.netloc, sp.path, [], sp.query, sp.fragment⟩
    rw [if_neg (fun hh => hsemi hh.2)]
  have hnv : normalize_urlC u.data = .ok (urlunparseC sp.scheme
      (lowerS sp.netloc)
      (if pyRstrip '/' sp.path = [] then ['/'] else pyRstrip '/' sp.path)
      [] sp.query []) := by
    unfold normalize_urlC
    rw [hparse2]
    rfl
  obtain ⟨vd⟩ := v
  unfold normalize_url at h
  rw [hnv] at h
  simp only [Except.map] at h
  injection h with h2
  injection h2 with h3
  have hW : urlunparseC sp.scheme (lowerS sp.netloc)
        (if pyRstrip '/' sp.path = [] then ['/'] else pyRstrip '/' sp.path)
        [] sp.query []
      = urlunsplitC sp.scheme (lowerS sp.netloc)
        (if pyRstrip '/' sp.path = [] then ['/'] else pyRstrip '/' sp.path)
        sp.query [] := by
    unfold urlunparseC
    rw [if_neg (fun hh : ([] : Chars) ≠ [] => hh rfl)]
  have hPP : (if pyRstrip '/' sp.path = [] then ['/'] else pyRstrip '/' sp.path)
        = ['/']
      ∨ ((if pyRstrip '/' sp.path = [] then ['/'] else pyRstrip '/' sp.path)
          = pyRstrip '/' sp.path ∧ pyRstrip '/' sp.path ≠ []) := by
    by_cases hre : pyRstrip '/' sp.path = []
    · left; rw [if_pos hre]
    · right; exact ⟨by rw [if_neg hre], hre⟩
  have Hs := F1
  have Hn : ∀ c ∈ lowerS sp.netloc, ¬(c = '/' ∨ c = '?' ∨ c = '#') := by
    intro c hc
    obtain ⟨d, hd, rfl⟩ := List.mem_map.mp hc
    have hdn := F2 d hd
    rintro (hx | hx | hx) <;> exact hdn (by
      rw [← asciiLower_eq_of_not_lower (by decide) hx]
      simp)
  have Hnb1 : '[' ∉ lowerS sp.netloc :=
    not_mem_lowerS (by decide)
      (fun hm => hbr1 (mem_urlPreprocess (F3 _ hm)))
  have Hnb2 : ']' ∉ lowerS sp.netloc :=
    not_mem_lowerS (by decide)
      (fun hm => hbr2 (mem_urlPreprocess (F3 _ hm)))
  have Hnl : lowerS (lowerS sp.netloc) = lowerS sp.netloc := lowerS_idem _
  have Hp0 : (if pyRstrip '/' sp.path = [] then ['/'] else pyRstrip '/' sp.path)
      ≠ [] := by
    rcases hPP with hP1 | ⟨hP1, hP2⟩
    · rw [hP1]; intro hx; cases hx
    · rw [hP1]; exact hP2
  have Hpf : '#' ∉ (if pyRstrip '/' sp.path = [] then ['/']
      else pyRstrip '/' sp.path) := by
    rcases hPP with hP1 | ⟨hP1, _⟩
    · rw [hP1]; decide
    · rw [hP1]; exact fun hm => F4.1 (mem_pyRstrip_sub hm)
  have Hpq : '?' ∉ (if pyRstrip '/' sp.path = [] then ['/']
      else pyRstrip '/' sp.path) := by
    rcases hPP with hP1 | ⟨hP1, _⟩
    · rw [hP1]; decide
    · rw [hP1]; exact fun hm => F4.2 (mem_pyRstrip_sub hm)
  have Hps : ';' ∉ (if pyRstrip '/' sp.path = [] then ['/']
      else pyRstrip '/' sp.path) := by
    rcases hPP with hP1 | ⟨hP1, _⟩
    · rw [hP1]; decide
    · rw [hP1]; exact fun hm => hsemi (mem_pyRstrip_sub hm)
  have Hpr : (if pyRstrip '/' sp.path = [] then ['/'] else pyRstrip '/' sp.path)
        = ['/']
      ∨ pyRstrip '/' (if pyRstrip '/' sp.path = [] then ['/']
          else pyRstrip '/' sp.path)
        = (if pyRstrip '/' sp.path = [] then ['/'] else pyRstrip '/' sp.path) := by
    rcases hPP with hP1 | ⟨hP1, _⟩
    · exact .inl hP1
    · right; rw [hP1]; exact pyRstrip_idem '/' sp.path
  have Hpe : lowerS sp.netloc = [] →
      (if pyRstrip '/' sp.path = [] then ['/']
        else pyRstrip '/' sp.path).take 2 ≠ ['/', '/'] := by
    intro hnl2
    have hn2 : sp.netloc = [] := List.map_eq_nil.mp hnl2
    have htake : sp.path.take 2 ≠ ['/', '/'] := fun hx => hss ⟨hn2, hx⟩
    rcases hPP with hP1 | ⟨hP1, hP2⟩
    · rw [hP1]; decide
    · rw [hP1]
      obtain ⟨k, hk⟩ := pyRstrip_decomp '/' sp.path
      intro hx
      apply htake
      cases hP : pyRstrip '/' sp.path with
      | nil => exact absurd hP hP2
      | cons x P2 =>
        cases P2 with
        | nil =>
          rw [hP] at hx
          have hx2 : [x] = ['/', '/'] := hx
          injection hx2 with _ hx3
          cases hx3
        | cons y P3 =>
          rw [hP] at hx
          have hx2 : [x, y] = ['/', '/'] := hx
          injection hx2 with hx3 hx4
          injection hx4 with hx5 _
          rw [hk, hP, hx3, hx5]
          rfl
  have Hcs := F8
  have Hcn : ∀ c ∈ lowerS sp.netloc, ¬(c = '\t' ∨ c = '\r' ∨ c = '\n') := by
    intro c hc
    obtain ⟨d, hd, rfl⟩ := List.mem_map.mp hc
    have hdu := urlPreprocess_unsafe_free (F3 d hd)
    rintro (hx | hx | hx) <;> exact hdu (by
      rw [← asciiLower_eq_of_not_lower (by decide) hx]
      simp)
  have Hcp : ∀ c ∈ (if pyRstrip '/' sp.path = [] then ['/']
      else pyRstrip '/' sp.path), ¬(c = '\t' ∨ c = '\r' ∨ c = '\n') := by
    rcases hPP with hP1 | ⟨hP1, _⟩
    · rw [hP1]
      intro c hc
      rcases List.mem_cons.mp hc with rfl | hc2
      · decide
      · cases hc2
    · rw [hP1]
      exact fun c hc => urlPreprocess_unsafe_free (F5 c (mem_pyRstrip_sub hc))
  have Hcq : ∀ c ∈ sp.query, ¬(c = '\t' ∨ c = '\r' ∨ c = '\n') :=
    fun c hc => urlPreprocess_unsafe_free (F7 c hc)
  have Hhd : sp.scheme = [] → lowerS sp.netloc = [] →
      ∀ c, (if pyRstrip '/' sp.path = [] then ['/']
        else pyRstrip '/' sp.path).head? = some c → 0x20 < c.toNat := by
    intro hs0 hnl2 c hc
    have hn2 : sp.netloc = [] := List.map_eq_nil.mp hnl2
    rcases hPP with hP1 | ⟨hP1, hP2⟩
    · rw [hP1] at hc
      have hc2 : some '/' = some c := hc
      injection hc2 with hc3
      rw [← hc3]
      decide
    · rw [hP1] at hc
      rw [pyRstrip_head hP2] at hc
      exact F10 hs0 hn2 c hc
  have Hqf := F6
  have Hnosch : sp.scheme = [] → lowerS sp.netloc = [] →
      ∀ pre post, (if pyRstrip '/' sp.path = [] then ['/']
          else pyRstrip '/' sp.path) = pre ++ ':' :: post → ':' ∉ pre →
      ¬(∃ c0 t0, pre = c0 :: t0 ∧ isAsciiAlpha c0 = true
          ∧ pre.all isSchemeChar = true) := by
    intro hs0 hnl2 pre post hdec hnm hval
    have hn2 : sp.netloc = [] := List.map_eq_nil.mp hnl2
    rcases hPP with hP1 | ⟨hP1, hP2⟩
    · rw [hP1] at hdec
      cases hpre : pre with
      | nil =>
        rw [hpre] at hdec
        have hdec2 : (['/'] : Chars) = ':' :: post := hdec
        injection hdec2 with hd1 _
        cases hd1
      | cons c0 t0 =>
        rw [hpre, List.cons_append] at hdec
        injection hdec with _ hd2
        exact absurd hd2.symm (by simp)
    · rw [hP1] at hdec
      obtain ⟨k, hk⟩ := pyRstrip_decomp '/' sp.path
      have hdec2 : sp.path = pre ++ ':' :: (post ++ List.replicate k '/') := by
        rw [hk, hdec, List.append_assoc, List.cons_append]
      exact F11 hs0 hn2 pre (post ++ List.replicate k '/') hdec2 hnm hval
  have hmain : normalize_urlC vd = .ok vd := by
    rw [← h3, hW]
    exact urlunsplit_normalize_fixed _ _ _ _ Hs Hn Hnb1 Hnb2 Hnl Hp0 Hpf Hpq
      Hps Hpr Hpe Hcs Hcn Hcp Hcq Hhd Hqf Hnosch
  have hfin : normalize_url ⟨vd⟩
      = (normalize_urlC vd).map (fun d => (⟨d⟩ : String)) := rfl
  rw [hfin, hmain]
  rfl

/-- Witness for C9 (amended): a URL in scope of the amended claim whose
normalisation the theorem proves to be a fixed point. -/
theorem normalize_url_idempotent_amended_witness :
    normalize_url "http://Example.EDU/dir/page/?q=1"
      = .ok "http://example.edu/dir/page?q=1"
    ∧ normalize_url "http://example.edu/dir/page?q=1"
      = .ok "http://example.edu/dir/page?q=1" := by
  refine ⟨by rfl, ?_⟩
  exact normalize_url_idempotent_amended "http://Example.EDU/dir/page/?q=1"
    "http://example.edu/dir/page?q=1"
    ⟨"http".data, "Example.EDU".data, "/dir/page/".data, "q=1".data, []⟩
    (by rfl) (by decide) (by decide) (by decide) (by decide) (by rfl)

end EduSpider
